import Mathlib

/-!
# Verification of the bitdb storage engine

A shallow embedding of the bitdb key/value storage engine (an append-only,
log-structured store with segments, an in-memory key directory, a manifest,
and background compaction).  Files are modelled as byte lists, the xxh3
content hash is an abstract 64-bit hash function parameter, and the Go
functions `writeRecord`, `readRecord`, `recordScanner.scan`, `parseSegment`,
`Open`, `Get`, `Set`, `Delete`, `Close`, `merge`, `tryMerge` and
`checkOrphanedSegments` are translated as executable Lean functions on
explicit state.
-/

set_option maxHeartbeats 1000000

namespace BitDB

/-- A file is a list of bytes (each `< 256` where the code writes them). -/
abbrev Bytes := List Nat

/-- Little-endian encoding of `n` into `w` bytes, as written by
`binary.LittleEndian.PutUint32` / `PutUint64`. -/
def leBytes : Nat → Nat → Bytes
  | 0, _ => []
  | w + 1, n => n % 256 :: leBytes w (n / 256)

/-- Little-endian value of a byte list, as read by
`binary.LittleEndian.Uint32` / `Uint64`. -/
def leVal : Bytes → Nat
  | [] => 0
  | b :: bs => b + 256 * leVal bs

/-- `binary.LittleEndian.Uint32`: read the first 4 bytes, little-endian. -/
def read32 (bs : Bytes) : Nat := leVal (bs.take 4)

/-- `binary.LittleEndian.Uint64`: read the first 8 bytes, little-endian. -/
def read64 (bs : Bytes) : Nat := leVal (bs.take 8)

theorem leBytes_length (w n : Nat) : (leBytes w n).length = w := by
  induction w generalizing n with
  | zero => rfl
  | succ w ih => simp [leBytes, ih]

theorem leVal_leBytes (w n : Nat) : leVal (leBytes w n) = n % 256 ^ w := by
  induction w generalizing n with
  | zero => simp [leBytes, leVal, Nat.mod_one]
  | succ w ih =>
    rw [leBytes, leVal, ih, pow_succ, mul_comm (256 ^ w) 256, Nat.mod_mul]

theorem take_append_of_length_le {l r : Bytes} {n : Nat} (h : n ≤ l.length) :
    (l ++ r).take n = l.take n := by
  rw [List.take_append_eq_append_take, Nat.sub_eq_zero_of_le h]
  simp

theorem drop_append_of_length_le {l r : Bytes} {n : Nat} (h : n ≤ l.length) :
    (l ++ r).drop n = l.drop n ++ r := by
  rw [List.drop_append_eq_append_drop, Nat.sub_eq_zero_of_le h]
  simp

theorem read32_leBytes_append (n : Nat) (rest : Bytes) :
    read32 (leBytes 4 n ++ rest) = n % 2 ^ 32 := by
  rw [read32, take_append_of_length_le (by rw [leBytes_length]),
    List.take_of_length_le (by rw [leBytes_length]), leVal_leBytes]
  norm_num

theorem read64_leBytes_append (n : Nat) (rest : Bytes) :
    read64 (leBytes 8 n ++ rest) = n % 2 ^ 64 := by
  rw [read64, take_append_of_length_le (by rw [leBytes_length]),
    List.take_of_length_le (by rw [leBytes_length]), leVal_leBytes]
  norm_num

/-- The 64-bit content hash used by the codec (`xxh3.Hash` in the source).
The engine only relies on it being a deterministic function into `uint64`,
so it is kept abstract: a function into `Nat` together with the 64-bit
range guarantee of the Go type. -/
structure HashFn where
  fn : Bytes → Nat
  lt : ∀ bs, fn bs < 2 ^ 64

/-- `TypeDelete` in `io.go` (the zero `WriteType`). -/
def TypeDelete : Nat := 0

/-- `TypeSet` in `io.go`. -/
def TypeSet : Nat := 1

/-- Header length (`hdrLen` in `io.go`): 8B checksum + 4B keyLen + 4B valLen
+ 1B writeType + 1B reserved. -/
def hdrLen : Nat := 18

/-- Checksum length (`csLen` in `io.go`). -/
def csLen : Nat := 8

/-- The bytes that `writeRecord` (`io.go`) emits for one record:
`[8-byte checksum][4-byte keyLen][4-byte valLen][1-byte writeType]
[1-byte reserved][key bytes][val bytes]`, where the checksum is the content
hash over everything after the checksum field.  `byte(wt)` keeps the low
8 bits of the write type. -/
def recContent (wt : Nat) (key val : Bytes) : Bytes :=
  leBytes 4 key.length ++ leBytes 4 val.length ++ [wt % 256, 0] ++ key ++ val

def encodeRecord (H : HashFn) (wt : Nat) (key val : Bytes) : Bytes :=
  leBytes 8 (H.fn (recContent wt key val)) ++ recContent wt key val

theorem recContent_length (wt : Nat) (key val : Bytes) :
    (recContent wt key val).length = 10 + key.length + val.length := by
  simp [recContent, leBytes_length]
  omega

theorem encodeRecord_length (H : HashFn) (wt : Nat) (key val : Bytes) :
    (encodeRecord H wt key val).length = hdrLen + key.length + val.length := by
  simp [encodeRecord, hdrLen, leBytes_length, recContent_length]
  omega

/-- Errors surfaced by the read path of the codec. -/
inductive ReadErr where
  /-- A `ReadAt` that could not fill its buffer (an I/O error in Go). -/
  | io : ReadErr
  /-- `ErrChecksumMismatch`. -/
  | checksumMismatch : ReadErr
deriving DecidableEq, Repr

/-- `file.ReadAt(buf[:n], off)`: succeeds iff `n` bytes exist at `off`. -/
def readAt (data : Bytes) (off n : Nat) : Option Bytes :=
  if off + n ≤ data.length then some ((data.drop off).take n) else none

/-- `parseHeader` (`io.go`): split an 18-byte header into checksum, keyLen,
valLen and writeType. -/
def parseHeader (hdr : Bytes) : Nat × Nat × Nat × Nat :=
  (read64 hdr, read32 (hdr.drop 8), read32 (hdr.drop 12), (hdr.drop 16).headD 0)

/-- `readRecord` (`io.go`): read the 18-byte header at `off`, then the
`keyLen + valLen` payload, recompute the hash over everything after the
checksum field when `verifyChecksum` is set, and return the value together
with the write type. -/
def readRecord (H : HashFn) (data : Bytes) (off : Nat) (verifyChecksum : Bool) :
    Except ReadErr (Bytes × Nat) :=
  match readAt data off hdrLen with
  | none => .error .io
  | some hdr =>
    let (checksum, keyLen, valLen, wt) := parseHeader hdr
    match readAt data (off + hdrLen) (keyLen + valLen) with
    | none => .error .io
    | some payload =>
      if verifyChecksum && !(checksum = H.fn (hdr.drop csLen ++ payload)) then
        .error .checksumMismatch
      else
        .ok (payload.drop keyLen, wt)

/-- A record as produced by `recordScanner.scan` (`scannedRecord` in
`io.go`): key, value, start offset and write type. -/
structure Rec where
  key : Bytes
  val : Bytes
  off : Nat
  wt : Nat
deriving DecidableEq, Repr

/-- The scanner's terminal states: either a benign end (EOF at a record
boundary or inside a torn tail record) or a checksum error. -/
inductive ScanErr where
  /-- `ErrChecksumMismatch` from the scanner. -/
  | checksumMismatch : ScanErr
deriving DecidableEq, Repr

/-- Result of running `recordScanner` to exhaustion: the records scanned,
the end offset of the last good record (`rs.end`), and the error state
(`rs.err`). -/
structure ScanOut where
  recs : List Rec
  endPos : Nat
  err : Option ScanErr
deriving DecidableEq, Repr

/-- Repeated `recordScanner.scan` (`io.go`), starting at absolute offset
`pos` with `bs` the remaining bytes of the file.  A short read of the
header or of the payload is a benign stop (torn tail); with
`verifyChecksum` set, a parsed header whose recomputed hash differs from
the stored checksum is a hard error. -/
def scanFrom (H : HashFn) (verifyChecksum : Bool) (pos : Nat) (bs : Bytes) :
    ScanOut :=
  if h18 : bs.length < hdrLen then ⟨[], pos, none⟩
  else
    let (checksum, keyLen, valLen, wt) := parseHeader (bs.take hdrLen)
    let totalLen := hdrLen + keyLen + valLen
    if hq : bs.length < totalLen then ⟨[], pos, none⟩
    else if verifyChecksum && !(checksum = H.fn ((bs.take totalLen).drop csLen)) then
      ⟨[], pos, some .checksumMismatch⟩
    else
      let key := (bs.drop hdrLen).take keyLen
      let val := (bs.drop (hdrLen + keyLen)).take valLen
      let rest := scanFrom H verifyChecksum (pos + totalLen) (bs.drop totalLen)
      ⟨⟨key, val, pos, wt⟩ :: rest.recs, rest.endPos, rest.err⟩
termination_by bs.length
decreasing_by
  simp only [List.length_drop]
  simp [hdrLen] at h18 hq ⊢
  omega

/-- The 18 header bytes of an encoded record. -/
def hdrBytes (c a b w : Nat) : Bytes :=
  leBytes 8 c ++ leBytes 4 a ++ leBytes 4 b ++ [w, 0]

theorem hdrBytes_length (c a b w : Nat) : (hdrBytes c a b w).length = hdrLen := by
  simp [hdrBytes, hdrLen, leBytes_length]

theorem encodeRecord_decomp (H : HashFn) (wt : Nat) (key val : Bytes) :
    encodeRecord H wt key val =
      hdrBytes (H.fn (recContent wt key val)) key.length val.length (wt % 256) ++
        (key ++ val) := by
  simp [encodeRecord, recContent, hdrBytes]

theorem drop_exact {l r : Bytes} {n : Nat} (h : l.length = n) : (l ++ r).drop n = r := by
  subst h
  exact List.drop_left l r

theorem take_exact {l r : Bytes} {n : Nat} (h : l.length = n) : (l ++ r).take n = l := by
  subst h
  exact List.take_left l r

theorem hdrBytes_append_take (c a b w : Nat) (rest : Bytes) :
    (hdrBytes c a b w ++ rest).take hdrLen = hdrBytes c a b w :=
  take_exact (hdrBytes_length c a b w)

theorem parseHeader_hdrBytes (c a b w : Nat) (hc : c < 2 ^ 64) (ha : a < 2 ^ 32)
    (hb : b < 2 ^ 32) :
    parseHeader (hdrBytes c a b w) = (c, a, b, w) := by
  show (leVal (leBytes 8 c), leVal (leBytes 4 a), leVal (leBytes 4 b), w) = (c, a, b, w)
  rw [leVal_leBytes, leVal_leBytes, leVal_leBytes, Nat.mod_eq_of_lt, Nat.mod_eq_of_lt,
    Nat.mod_eq_of_lt]
  · exact hb
  · exact ha
  · norm_num at hc ⊢
    exact hc

theorem recContent_eq_drop8 (H : HashFn) (wt : Nat) (key val : Bytes) :
    (hdrBytes (H.fn (recContent wt key val)) key.length val.length (wt % 256)).drop 8 ++
      (key ++ val) = recContent wt key val := by
  show (leBytes 4 key.length ++ (leBytes 4 val.length ++ ([wt % 256, 0] ++ [])) :
    Bytes) ++ (key ++ val) = recContent wt key val
  simp [recContent]

/-- Decoding an encoded record embedded in a file at its own offset returns
the value and the (low 8 bits of the) write type; the checksum recomputed
by `readRecord` matches by construction. -/
theorem readRecord_encode (H : HashFn) (pre post key val : Bytes) (wt : Nat)
    (verify : Bool) (hk : key.length < 2 ^ 32) (hv : val.length < 2 ^ 32) :
    readRecord H (pre ++ (encodeRecord H wt key val ++ post)) pre.length verify =
      .ok (val, wt % 256) := by
  have hlen := encodeRecord_length H wt key val
  have hdrop : (pre ++ (encodeRecord H wt key val ++ post)).drop pre.length =
      encodeRecord H wt key val ++ post := List.drop_left _ _
  have hdlen : (pre ++ (encodeRecord H wt key val ++ post)).length =
      pre.length + (hdrLen + key.length + val.length) + post.length := by
    simp [hlen]
    omega
  have h1 : readAt (pre ++ (encodeRecord H wt key val ++ post)) pre.length hdrLen =
      some (hdrBytes (H.fn (recContent wt key val)) key.length val.length (wt % 256)) := by
    rw [readAt, if_pos (by omega)]
    rw [hdrop, encodeRecord_decomp, List.append_assoc, hdrBytes_append_take]
  have h2 : readAt (pre ++ (encodeRecord H wt key val ++ post)) (pre.length + hdrLen)
      (key.length + val.length) = some (key ++ val) := by
    rw [readAt, if_pos (by omega)]
    rw [← List.drop_drop, hdrop, encodeRecord_decomp, List.append_assoc,
      drop_exact (hdrBytes_length _ _ _ _)]
    rw [take_exact (by simp)]
  rw [readRecord, h1]
  simp only [parseHeader_hdrBytes _ _ _ _ (H.lt _) hk hv, h2, csLen,
    recContent_eq_drop8, decide_True, Bool.not_true, Bool.and_false,
    Bool.false_eq_true, if_false]
  rw [drop_exact rfl]

/-- A record before it is written: write type, key and value. -/
structure RawRec where
  wt : Nat
  key : Bytes
  val : Bytes
deriving DecidableEq, Repr

/-- The length bounds the Go types give every record the engine writes:
`uint32` lengths and a one-byte write type. -/
def WfRaw (r : RawRec) : Prop :=
  r.key.length < 2 ^ 32 ∧ r.val.length < 2 ^ 32 ∧ r.wt < 256

/-- A file consisting of the given records, in order, each encoded by
`writeRecord`. -/
def encodeAll (H : HashFn) : List RawRec → Bytes
  | [] => []
  | r :: rl => encodeRecord H r.wt r.key r.val ++ encodeAll H rl

/-- The scanned records of `encodeAll rl`, starting at offset `pos`:
each record paired with its start offset. -/
def recsWith (pos : Nat) : List RawRec → List Rec
  | [] => []
  | r :: rl =>
    ⟨r.key, r.val, pos, r.wt⟩ ::
      recsWith (pos + (hdrLen + r.key.length + r.val.length)) rl

theorem encodeAll_append (H : HashFn) (rl₁ rl₂ : List RawRec) :
    encodeAll H (rl₁ ++ rl₂) = encodeAll H rl₁ ++ encodeAll H rl₂ := by
  induction rl₁ with
  | nil => simp [encodeAll]
  | cons r rl ih => simp [encodeAll, ih]

theorem recsWith_append {H : HashFn} (pos : Nat) (rl₁ rl₂ : List RawRec) :
    recsWith pos (rl₁ ++ rl₂) =
      recsWith pos rl₁ ++ recsWith (pos + (encodeAll H rl₁).length) rl₂ := by
  induction rl₁ generalizing pos with
  | nil => simp [recsWith, encodeAll]
  | cons r rl ih =>
    simp only [List.cons_append, recsWith, encodeAll, List.append_eq, ih,
      List.length_append, encodeRecord_length]
    have harith : pos + (hdrLen + r.key.length + r.val.length) + (encodeAll H rl).length =
        pos + (hdrLen + r.key.length + r.val.length + (encodeAll H rl).length) := by
      omega
    rw [harith]

/-- One `scan` step on a file that starts with a complete encoded record. -/
theorem scanFrom_encode_cons (H : HashFn) (verify : Bool) (pos : Nat) (r : RawRec)
    (rest : Bytes) (hwf : WfRaw r) :
    scanFrom H verify pos (encodeRecord H r.wt r.key r.val ++ rest) =
      let out := scanFrom H verify (pos + (hdrLen + r.key.length + r.val.length)) rest
      ⟨⟨r.key, r.val, pos, r.wt⟩ :: out.recs, out.endPos, out.err⟩ := by
  obtain ⟨hk, hv, hw⟩ := hwf
  have hlen := encodeRecord_length H r.wt r.key r.val
  set bs := encodeRecord H r.wt r.key r.val ++ rest with hbs
  have hbslen : bs.length = (hdrLen + r.key.length + r.val.length) + rest.length := by
    simp [hbs, hlen]
  have hdec : bs = hdrBytes (H.fn (recContent r.wt r.key r.val)) r.key.length
      r.val.length (r.wt % 256) ++ ((r.key ++ r.val) ++ rest) := by
    rw [hbs, encodeRecord_decomp, List.append_assoc]
  have htake : bs.take hdrLen = hdrBytes (H.fn (recContent r.wt r.key r.val))
      r.key.length r.val.length (r.wt % 256) := by
    rw [hdec, hdrBytes_append_take]
  rw [scanFrom]
  rw [dif_neg (by rw [hbslen]; simp [hdrLen]; omega)]
  simp only [htake, parseHeader_hdrBytes _ _ _ _ (H.lt _) hk hv]
  rw [dif_neg (by rw [hbslen]; omega)]
  have hcs : (bs.take (hdrLen + r.key.length + r.val.length)).drop csLen =
      recContent r.wt r.key r.val := by
    rw [hbs, take_append_of_length_le (by omega), hlen.symm, List.take_length,
      encodeRecord]
    exact drop_exact (leBytes_length 8 _)
  rw [if_neg (by simp [hcs])]
  have hdrop18 : bs.drop hdrLen = (r.key ++ r.val) ++ rest := by
    rw [hdec, drop_exact (hdrBytes_length _ _ _ _)]
  have hkey : (bs.drop hdrLen).take r.key.length = r.key := by
    rw [hdrop18, List.append_assoc, take_exact rfl]
  have hval : (bs.drop (hdrLen + r.key.length)).take r.val.length = r.val := by
    rw [← List.drop_drop, hdrop18, List.append_assoc, drop_exact rfl, take_exact rfl]
  have hrest : bs.drop (hdrLen + r.key.length + r.val.length) = rest := by
    rw [hbs, ← hlen]
    exact List.drop_left _ _
  rw [hkey, hval, hrest, Nat.mod_eq_of_lt hw]

/-- Scanning a concatenation of complete encoded records followed by an
arbitrary tail yields those records and then continues into the tail. -/
theorem scanFrom_encodeAll_tail (H : HashFn) (verify : Bool) (rl : List RawRec)
    (hwf : ∀ r ∈ rl, WfRaw r) (pos : Nat) (tail : Bytes) :
    scanFrom H verify pos (encodeAll H rl ++ tail) =
      let out := scanFrom H verify (pos + (encodeAll H rl).length) tail
      ⟨recsWith pos rl ++ out.recs, out.endPos, out.err⟩ := by
  induction rl generalizing pos with
  | nil => simp [encodeAll, recsWith]
  | cons r rl ih =>
    have hr := hwf r (List.mem_cons_self r rl)
    have hstep := scanFrom_encode_cons H verify pos r (encodeAll H rl ++ tail) hr
    rw [encodeAll, List.append_assoc, hstep]
    simp only [ih (fun x hx => hwf x (List.mem_cons_of_mem r hx)), recsWith]
    simp [encodeRecord_length, Nat.add_assoc]

/-- Scanning a file of complete encoded records succeeds, returning exactly
those records, with the end offset at the end of the file and no error. -/
theorem scanFrom_encodeAll (H : HashFn) (verify : Bool) (rl : List RawRec)
    (hwf : ∀ r ∈ rl, WfRaw r) (pos : Nat) :
    scanFrom H verify pos (encodeAll H rl) =
      ⟨recsWith pos rl, pos + (encodeAll H rl).length, none⟩ := by
  have h := scanFrom_encodeAll_tail H verify rl hwf pos []
  rw [List.append_nil] at h
  rw [h]
  rw [scanFrom, dif_pos (by simp [hdrLen])]
  simp

/-- Scanning a strict prefix of a single encoded record stops silently at
offset `pos` (a torn tail is not an error). -/
theorem scanFrom_torn (H : HashFn) (verify : Bool) (pos : Nat) (r : RawRec)
    (hwf : WfRaw r) (t : Nat)
    (ht : t < (encodeRecord H r.wt r.key r.val).length) :
    scanFrom H verify pos ((encodeRecord H r.wt r.key r.val).take t) =
      ⟨[], pos, none⟩ := by
  obtain ⟨hk, hv, _⟩ := hwf
  have hlen := encodeRecord_length H r.wt r.key r.val
  have htlen : ((encodeRecord H r.wt r.key r.val).take t).length = t := by
    rw [List.length_take]
    omega
  by_cases h18 : t < hdrLen
  · rw [scanFrom, dif_pos (by rw [htlen]; exact h18)]
  · push_neg at h18
    rw [scanFrom, dif_neg (by rw [htlen]; omega)]
    have htake : ((encodeRecord H r.wt r.key r.val).take t).take hdrLen =
        hdrBytes (H.fn (recContent r.wt r.key r.val)) r.key.length r.val.length
          (r.wt % 256) := by
      rw [List.take_take, min_eq_left h18, encodeRecord_decomp,
        hdrBytes_append_take]
    simp only [htake, parseHeader_hdrBytes _ _ _ _ (H.lt _) hk hv]
    rw [dif_pos (by rw [htlen, hdrLen]; rw [encodeRecord_length, hdrLen] at ht; omega)]

/-- Scanning a file whose next record has a parseable header and a complete
payload but a checksum that does not match is a hard error. -/
theorem scanFrom_corrupt (H : HashFn) (pos : Nat) (c a b w : Nat) (payload rest : Bytes)
    (hc : c < 2 ^ 64) (ha : a < 2 ^ 32) (hb : b < 2 ^ 32)
    (hp : payload.length = a + b)
    (hmismatch : c ≠ H.fn ((hdrBytes c a b w).drop csLen ++ payload)) :
    scanFrom H true pos (hdrBytes c a b w ++ (payload ++ rest)) =
      ⟨[], pos, some .checksumMismatch⟩ := by
  have hlen : (hdrBytes c a b w ++ (payload ++ rest)).length =
      hdrLen + (a + b) + rest.length := by
    simp [hdrBytes_length, hp]
    omega
  rw [scanFrom, dif_neg (by rw [hlen]; omega)]
  have htake18 : (hdrBytes c a b w ++ (payload ++ rest)).take hdrLen =
      hdrBytes c a b w := hdrBytes_append_take c a b w _
  simp only [htake18, parseHeader_hdrBytes c a b w hc ha hb]
  rw [dif_neg (by rw [hlen]; omega)]
  have htot : (hdrBytes c a b w ++ (payload ++ rest)).take (hdrLen + a + b) =
      hdrBytes c a b w ++ payload := by
    rw [← List.append_assoc]
    exact take_exact (by simp [hdrBytes_length, hp]; omega)
  have hdropcs : ((hdrBytes c a b w ++ (payload ++ rest)).take (hdrLen + a + b)).drop csLen =
      (hdrBytes c a b w).drop csLen ++ payload := by
    rw [htot, drop_append_of_length_le (by rw [hdrBytes_length, hdrLen, csLen]; omega)]
  rw [if_pos (by simp [hdropcs, hmismatch])]

/-- Errors from opening a segment (`parseSegment` in `segment.go`). -/
inductive SegErr where
  /-- The scanner stopped with a checksum mismatch. -/
  | scan : ScanErr → SegErr
deriving DecidableEq, Repr

/-- `parseSegment` (`segment.go`): run the record scanner over the file; if
the scanner stopped with an error, opening the segment fails; otherwise the
segment's size is the scanner's last good end offset and the file is
truncated to that size. Returns the scanned records, the size, and the
truncated file contents. -/
def parseSegmentData (H : HashFn) (verifyChecksum : Bool) (data : Bytes) :
    Except SegErr (List Rec × Nat × Bytes) :=
  let out := scanFrom H verifyChecksum 0 data
  match out.err with
  | some e => .error (.scan e)
  | none => .ok (out.recs, out.endPos, data.take out.endPos)

/-! ## The in-memory key directory

Go's `map[string]*recordLocation` is modelled as an association list with
map semantics: `idxSet` removes any previous binding for the key. -/

/-- `recordLocation` (`db.go`): the address of a record.  The Go struct
holds a `*segment`; since segment ids are unique and never reused within a
run, the pointer is represented by the segment id. -/
structure RecordLocation where
  segId : Nat
  offset : Nat
deriving DecidableEq, Repr

abbrev Index := List (Bytes × RecordLocation)

/-- `db.index[key]` (map read). -/
def idxLookup : Index → Bytes → Option RecordLocation
  | [], _ => none
  | (k', loc) :: t, k => if k' = k then some loc else idxLookup t k

/-- `db.index[key] = loc` (map write). -/
def idxSet (idx : Index) (k : Bytes) (loc : RecordLocation) : Index :=
  (k, loc) :: idx.filter (fun p => p.1 ≠ k)

/-- `delete(db.index, key)` (map delete). -/
def idxErase (idx : Index) (k : Bytes) : Index :=
  idx.filter (fun p => p.1 ≠ k)

theorem idxLookup_filter_ne (idx : Index) (k k' : Bytes) (h : k' ≠ k) :
    idxLookup (idx.filter (fun p => p.1 ≠ k)) k' = idxLookup idx k' := by
  induction idx with
  | nil => rfl
  | cons p t ih =>
    obtain ⟨pk, pv⟩ := p
    rw [List.filter_cons]
    by_cases hp : pk = k
    · rw [if_neg (by simp [hp]), ih, idxLookup,
        if_neg (by rw [hp]; exact fun hh => h hh.symm)]
    · rw [if_pos (by simp [hp]), idxLookup, idxLookup, ih]

theorem idxLookup_set_self (idx : Index) (k : Bytes) (loc : RecordLocation) :
    idxLookup (idxSet idx k loc) k = some loc := by
  rw [idxSet, idxLookup, if_pos rfl]

theorem idxLookup_set_ne (idx : Index) (k k' : Bytes) (loc : RecordLocation)
    (h : k' ≠ k) :
    idxLookup (idxSet idx k loc) k' = idxLookup idx k' := by
  rw [idxSet, idxLookup, if_neg (fun hh => h hh.symm), idxLookup_filter_ne _ _ _ h]

theorem idxLookup_erase_self (idx : Index) (k : Bytes) :
    idxLookup (idxErase idx k) k = none := by
  rw [idxErase]
  induction idx with
  | nil => rfl
  | cons p t ih =>
    obtain ⟨pk, pv⟩ := p
    rw [List.filter_cons]
    by_cases hp : pk = k
    · rw [if_neg (by simp [hp])]
      exact ih
    · rw [if_pos (by simp [hp]), idxLookup, if_neg hp]
      exact ih

theorem idxLookup_erase_ne (idx : Index) (k k' : Bytes) (h : k' ≠ k) :
    idxLookup (idxErase idx k) k' = idxLookup idx k' :=
  idxLookup_filter_ne idx k k' h

/-! ## Segments and the DB state

`segment` (`segment.go`) and `DB` (`db.go`).  A segment's file is its byte
contents; the write cursor always sits at the end of the file (enforced at
open by the `Seek` to the end), so `file.Write` appends. -/

/-- `segment`: id, file contents, and the tracked size. -/
structure Segment where
  id : Nat
  data : Bytes
  size : Nat
deriving DecidableEq, Repr

/-- `segment.write`: encode the record, append it with a single write,
advance `size` by the byte count, and return the record's offset (the old
size).  `fsync` has no observable effect on the in-process state. -/
def Segment.write (H : HashFn) (s : Segment) (wt : Nat) (key val : Bytes) :
    Nat × Segment :=
  (s.size,
    { s with
      data := s.data ++ encodeRecord H wt key val
      size := s.size + (hdrLen + key.length + val.length) })

/-- `segment.read`: `readRecord` on the segment's file. -/
def Segment.read (H : HashFn) (s : Segment) (off : Nat) (verifyChecksum : Bool) :
    Except ReadErr (Bytes × Nat) :=
  readRecord H s.data off verifyChecksum

/-- The `DB` struct (`db.go`): segment list (last = active), key directory,
manifest contents (the list of segment ids it stores, in order), the segment
id counter and the options.  The merge semaphore, error channel and test
hooks are modelled separately with the merge engine. -/
structure DB where
  segments : List Segment
  index : Index
  idCtr : Nat
  manifest : List Nat
  fsync : Bool
  mergeEnabled : Bool
  checksumEnabled : Bool
  rolloverThreshold : Nat
  mergeThreshold : Nat
deriving DecidableEq, Repr

/-- Errors of the public operations. -/
inductive DbErr where
  /-- `ErrKeyNotFound`. -/
  | keyNotFound : DbErr
  /-- A failed or checksum-mismatching `seg.read` wrapped by `Get`. -/
  | readFailed : ReadErr → DbErr
deriving DecidableEq, Repr

/-- `db.segments[len(db.segments)-1]`, the active segment. -/
def DB.active (db : DB) : Option Segment := db.segments.getLast?

/-- `DB.addSegment` (`db.go`): claim the next id, create an empty segment,
append it to the list and atomically rewrite the manifest. -/
def DB.addSegment (db : DB) : DB :=
  let seg : Segment := { id := db.idCtr, data := [], size := 0 }
  let segs := db.segments ++ [seg]
  { db with
    segments := segs
    idCtr := db.idCtr + 1
    manifest := segs.map (·.id) }

/-- `DB.checkRolloverAndMerge` (`db.go`): roll over when the active segment
reached the threshold.  The merge trigger (`tryMerge`) starts a background
task and leaves the foreground state unchanged; the merge itself is
modelled separately. -/
def DB.checkRolloverAndMerge (db : DB) (seg : Segment) : DB :=
  if seg.size < db.rolloverThreshold then db else db.addSegment

/-- `DB.Set` (`db.go`): append a `Set` record to the active segment, point
the directory at it, then roll over / trigger a merge if needed.  (The Go
code indexes `db.segments[len-1]` and would panic on an empty list; `Open`
guarantees a segment, so the empty case never arises and is mapped to the
unchanged state.) -/
def DB.setOp (H : HashFn) (db : DB) (key val : Bytes) : DB :=
  match db.segments.getLast? with
  | none => db
  | some seg =>
    let (off, seg') := seg.write H TypeSet key val
    let db' := { db with
      segments := db.segments.dropLast ++ [seg']
      index := idxSet db.index key ⟨seg.id, off⟩ }
    db'.checkRolloverAndMerge seg'

/-- `DB.Delete` (`db.go`): fail fast with `ErrKeyNotFound` when the key has
no directory entry; otherwise append a tombstone record, remove the key
from the directory, then roll over / trigger a merge if needed. -/
def DB.deleteOp (H : HashFn) (db : DB) (key : Bytes) : Except DbErr DB :=
  match idxLookup db.index key with
  | none => .error .keyNotFound
  | some _ =>
    match db.segments.getLast? with
    | none => .ok db
    | some seg =>
      let (_, seg') := seg.write H TypeDelete key []
      let db' := { db with
        segments := db.segments.dropLast ++ [seg']
        index := idxErase db.index key }
      .ok (db'.checkRolloverAndMerge seg')

/-- `db.segments` lookup through a `recordLocation`'s segment pointer:
the segment with the location's id. -/
def DB.findSeg (db : DB) (segId : Nat) : Option Segment :=
  db.segments.find? (fun s => s.id = segId)

/-- `DB.Get` (`db.go`): look the key up in the directory; read the record
at the stored location, verifying the checksum when enabled; a read error
is wrapped; reading a tombstone is reported as `ErrKeyNotFound`. -/
def DB.get (H : HashFn) (db : DB) (key : Bytes) : Except DbErr Bytes :=
  match idxLookup db.index key with
  | none => .error .keyNotFound
  | some loc =>
    match db.findSeg loc.segId with
    | none => .error (.readFailed .io)
    | some seg =>
      match seg.read H loc.offset db.checksumEnabled with
      | .error e => .error (.readFailed e)
      | .ok (val, wt) =>
        if wt = TypeDelete then .error .keyNotFound else .ok val

/-- `DB.Get` with the state threaded explicitly, mirroring the source
statement by statement: the lock acquisition, the index read, the
positional `ReadAt`s and the error/tombstone branches touch no field of
`db`, so each branch returns the incoming state. -/
def DB.getFull (H : HashFn) (db : DB) (key : Bytes) : Except DbErr Bytes × DB :=
  match idxLookup db.index key with
  | none => (.error .keyNotFound, db)
  | some loc =>
    match db.findSeg loc.segId with
    | none => (.error (.readFailed .io), db)
    | some seg =>
      match seg.read H loc.offset db.checksumEnabled with
      | .error e => (.error (.readFailed e), db)
      | .ok (val, wt) =>
        if wt = TypeDelete then (.error .keyNotFound, db) else (.ok val, db)

/-! ## Operation sequences -/

/-- A foreground write operation. -/
inductive Op where
  | set (key val : Bytes) : Op
  | del (key : Bytes) : Op
deriving DecidableEq, Repr

/-- The key an operation touches. -/
def Op.key : Op → Bytes
  | .set k _ => k
  | .del k => k

/-- Length bounds on an operation's payload (Go strings under 4 GiB,
a spec non-goal above that). -/
def Op.Wf : Op → Prop
  | .set k v => k.length < 2 ^ 32 ∧ v.length < 2 ^ 32
  | .del k => k.length < 2 ^ 32

/-- Run one operation; a failed `Delete` leaves the state unchanged. -/
def DB.applyOp (H : HashFn) (db : DB) : Op → DB
  | .set k v => db.setOp H k v
  | .del k =>
    match db.deleteOp H k with
    | .error _ => db
    | .ok db' => db'

def DB.applyOps (H : HashFn) (db : DB) (ops : List Op) : DB :=
  ops.foldl (fun d op => d.applyOp H op) db

/-! ## Replay and the main invariant

`Open` rebuilds the directory by scanning every segment in manifest order
and replaying its records; the invariant states that the live directory
always equals that replay. -/

/-- The records of a segment as the scanner reads them back (checksums are
valid for files the engine wrote, so the verify flag does not matter; the
non-verifying scan is the canonical one). -/
def segRecs (H : HashFn) (s : Segment) : List Rec :=
  (scanFrom H false 0 s.data).recs

/-- Apply one replayed record to the directory, as the `Open` loop does:
`Set` inserts or overwrites the location, `Delete` removes the key. -/
def applyRec (segId : Nat) (idx : Index) (r : Rec) : Index :=
  if r.wt = TypeSet then idxSet idx r.key ⟨segId, r.off⟩
  else if r.wt = TypeDelete then idxErase idx r.key
  else idx

/-- Replay all records of one segment. -/
def replaySeg (H : HashFn) (idx : Index) (s : Segment) : Index :=
  (segRecs H s).foldl (applyRec s.id) idx

/-- Replay a list of segments in order, starting from an empty directory. -/
def replayAll (H : HashFn) (segs : List Segment) : Index :=
  segs.foldl (replaySeg H) []

/-- The raw records of a well-formed segment file together with bounds:
the segment's file is exactly the encoding of a record list whose entries
respect the wire-format bounds and use only the two write types. -/
def CleanSeg (H : HashFn) (s : Segment) : Prop :=
  ∃ rl : List RawRec,
    s.data = encodeAll H rl ∧
    (∀ r ∈ rl, WfRaw r) ∧
    (∀ r ∈ rl, r.wt = TypeDelete ∨ r.wt = TypeSet)

/-- The engine invariant, established by `Open` and preserved by every
foreground operation: a nonempty segment list whose tracked sizes match
the file lengths, unique segment ids all below the id counter, a manifest
that mirrors the segment list, clean segment files, and a directory that
equals the replay of all segments. -/
structure Inv (H : HashFn) (db : DB) : Prop where
  ne : db.segments ≠ []
  sizes : ∀ s ∈ db.segments, s.size = s.data.length
  clean : ∀ s ∈ db.segments, CleanSeg H s
  idsNodup : (db.segments.map (·.id)).Nodup
  idsLt : ∀ s ∈ db.segments, s.id < db.idCtr
  manifestSync : db.manifest = db.segments.map (·.id)
  replayEq : ∀ k, idxLookup (replayAll H db.segments) k = idxLookup db.index k

/-! ### Support lemmas -/

theorem find_seg_list {segs : List Segment} {s : Segment}
    (hnd : (segs.map (·.id)).Nodup) (hs : s ∈ segs) :
    segs.find? (fun x => x.id = s.id) = some s := by
  induction segs with
  | nil => cases hs
  | cons s₀ t ih =>
    rw [List.map_cons, List.nodup_cons] at hnd
    rcases List.mem_cons.mp hs with h | h
    · subst h
      rw [List.find?_cons_of_pos _ (by simp)]
    · have hne : ¬(s₀.id = s.id) := by
        intro he
        exact hnd.1 (he ▸ List.mem_map_of_mem (·.id) h)
      rw [List.find?_cons_of_neg _ (by simpa using hne)]
      exact ih hnd.2 h

theorem findSeg_eq {db : DB} {s : Segment}
    (hnd : (db.segments.map (·.id)).Nodup) (hs : s ∈ db.segments) :
    db.findSeg s.id = some s :=
  find_seg_list hnd hs

theorem replayAll_concat (H : HashFn) (segs : List Segment) (s : Segment) :
    replayAll H (segs ++ [s]) = replaySeg H (replayAll H segs) s := by
  rw [replayAll, replayAll, List.foldl_append, List.foldl_cons, List.foldl_nil]

theorem segRecs_clean (H : HashFn) {s : Segment} {rl : List RawRec}
    (hdata : s.data = encodeAll H rl) (hwf : ∀ r ∈ rl, WfRaw r) :
    segRecs H s = recsWith 0 rl := by
  rw [segRecs, hdata, scanFrom_encodeAll H false rl hwf 0]

/-- A scanned record of an encoded file is one of the raw records, at the
offset given by the length of the preceding encodings. -/
theorem mem_recsWith {H : HashFn} {rl : List RawRec} {rec : Rec} {pos : Nat}
    (h : rec ∈ recsWith pos rl) :
    ∃ rl₁ r rl₂, rl = rl₁ ++ r :: rl₂ ∧
      rec = ⟨r.key, r.val, pos + (encodeAll H rl₁).length, r.wt⟩ := by
  induction rl generalizing pos with
  | nil => cases h
  | cons r rl ih =>
    rw [recsWith] at h
    rcases List.mem_cons.mp h with h | h
    · exact ⟨[], r, rl, rfl, by simpa [encodeAll] using h⟩
    · obtain ⟨rl₁, r', rl₂, hrl, hrec⟩ := ih h
      refine ⟨r :: rl₁, r', rl₂, by rw [hrl]; simp, ?_⟩
      rw [hrec]
      simp [encodeAll, encodeRecord_length]
      omega

/-- Every scanned record is embedded in the file at its own offset. -/
theorem rec_embedding (H : HashFn) {s : Segment} (hc : CleanSeg H s) {rec : Rec}
    (hrec : rec ∈ segRecs H s) :
    ∃ pre post, s.data = pre ++ (encodeRecord H rec.wt rec.key rec.val ++ post) ∧
      pre.length = rec.off ∧ WfRaw ⟨rec.wt, rec.key, rec.val⟩ := by
  obtain ⟨rl, hdata, hwf, _⟩ := hc
  rw [segRecs_clean H hdata hwf] at hrec
  obtain ⟨rl₁, r, rl₂, hrl, hr⟩ := @mem_recsWith H _ _ _ hrec
  subst hrl
  refine ⟨encodeAll H rl₁, encodeAll H rl₂, ?_, ?_, ?_⟩
  · rw [hdata, encodeAll_append, encodeAll, hr]
  · rw [hr]
    simp
  · have := hwf r (by simp)
    rw [hr]
    exact this

/-- A directory binding produced by replaying some records comes from a
`Set` record among them, or was already present. -/
theorem foldl_applyRec_lookup {segId : Nat} {recs : List Rec} {idx : Index}
    {k : Bytes} {loc : RecordLocation}
    (h : idxLookup (recs.foldl (applyRec segId) idx) k = some loc) :
    (∃ rec ∈ recs, rec.key = k ∧ rec.off = loc.offset ∧ rec.wt = TypeSet ∧
      segId = loc.segId) ∨ idxLookup idx k = some loc := by
  induction recs using List.list_reverse_induction generalizing loc with
  | base => exact Or.inr h
  | ind recs rec ih =>
    rw [List.foldl_append, List.foldl_cons, List.foldl_nil] at h
    rw [applyRec] at h
    by_cases hset : rec.wt = TypeSet
    · rw [if_pos hset] at h
      by_cases hk : rec.key = k
      · subst hk
        rw [idxLookup_set_self] at h
        cases h
        exact Or.inl ⟨rec, by simp, rfl, rfl, hset, rfl⟩
      · rw [idxLookup_set_ne _ _ _ _ (fun hh => hk hh.symm)] at h
        rcases ih h with ⟨r, hr, hrest⟩ | h'
        · exact Or.inl ⟨r, by simp [hr], hrest⟩
        · exact Or.inr h'
    · rw [if_neg hset] at h
      by_cases hdel : rec.wt = TypeDelete
      · rw [if_pos hdel] at h
        by_cases hk : rec.key = k
        · subst hk
          rw [idxLookup_erase_self] at h
          cases h
        · rw [idxLookup_erase_ne _ _ _ (fun hh => hk hh.symm)] at h
          rcases ih h with ⟨r, hr, hrest⟩ | h'
          · exact Or.inl ⟨r, by simp [hr], hrest⟩
          · exact Or.inr h'
      · rw [if_neg hdel] at h
        rcases ih h with ⟨r, hr, hrest⟩ | h'
        · exact Or.inl ⟨r, by simp [hr], hrest⟩
        · exact Or.inr h'

/-- A directory binding after a full replay comes from a `Set` record of
one of the segments, with the segment's id. -/
theorem replayAll_lookup {H : HashFn} {segs : List Segment} {k : Bytes}
    {loc : RecordLocation}
    (h : idxLookup (replayAll H segs) k = some loc) :
    ∃ s ∈ segs, s.id = loc.segId ∧ ∃ rec ∈ segRecs H s,
      rec.key = k ∧ rec.off = loc.offset ∧ rec.wt = TypeSet := by
  induction segs using List.list_reverse_induction generalizing loc with
  | base =>
    rw [replayAll, List.foldl_nil] at h
    cases h
  | ind segs s ih =>
    rw [replayAll_concat] at h
    rw [replaySeg] at h
    rcases foldl_applyRec_lookup h with ⟨rec, hrec, hk, hoff, hwt, hid⟩ | h'
    · exact ⟨s, by simp, hid, rec, hrec, hk, hoff, hwt⟩
    · obtain ⟨s', hs', hid, rec, hrec, hrest⟩ := ih h'
      exact ⟨s', by simp [hs'], hid, rec, hrec, hrest⟩

/-- Under the invariant, every directory entry points at a live `Set`
record for its key: the segment exists, and the record is embedded in the
segment's file at the stored offset. -/
theorem entry_spec {H : HashFn} {db : DB} (inv : Inv H db) {k : Bytes}
    {loc : RecordLocation} (h : idxLookup db.index k = some loc) :
    ∃ s ∈ db.segments, s.id = loc.segId ∧ ∃ v : Bytes,
      v.length < 2 ^ 32 ∧ k.length < 2 ^ 32 ∧
      ∃ pre post, s.data = pre ++ (encodeRecord H TypeSet k v ++ post) ∧
        pre.length = loc.offset := by
  rw [← inv.replayEq] at h
  obtain ⟨s, hs, hid, rec, hrec, hk, hoff, hwt⟩ := replayAll_lookup h
  obtain ⟨pre, post, hdata, hpre, hwf⟩ := rec_embedding H (inv.clean s hs) hrec
  refine ⟨s, hs, hid, rec.val, hwf.2.1, hk ▸ hwf.1, pre, post, ?_, hpre.trans hoff⟩
  rw [hdata, hwt, hk]

/-- Under the invariant, `Get` of a bound key returns the value embedded at
the entry's location. -/
theorem get_of_entry {H : HashFn} {db : DB}
    (hnd : (db.segments.map (·.id)).Nodup) {k : Bytes}
    {loc : RecordLocation} {s : Segment} {v pre post : Bytes}
    (h : idxLookup db.index k = some loc) (hs : s ∈ db.segments)
    (hid : s.id = loc.segId)
    (hdata : s.data = pre ++ (encodeRecord H TypeSet k v ++ post))
    (hpre : pre.length = loc.offset)
    (hk : k.length < 2 ^ 32) (hv : v.length < 2 ^ 32) :
    DB.get H db k = .ok v := by
  have hfind : db.findSeg loc.segId = some s := by
    rw [← hid]
    exact findSeg_eq hnd hs
  have hread : Segment.read H s loc.offset db.checksumEnabled = .ok (v, TypeSet % 256) := by
    rw [Segment.read, hdata, ← hpre,
      readRecord_encode H pre post k v TypeSet db.checksumEnabled hk hv]
  simp only [DB.get, h, hfind, hread]
  rw [if_neg (by simp [TypeSet, TypeDelete])]

/-! ### Preservation of the invariant by the foreground operations -/

theorem eq_dropLast_append {l : List Segment} {s : Segment}
    (h : l.getLast? = some s) : l = l.dropLast ++ [s] := by
  have hne : l ≠ [] := by
    intro h'
    subst h'
    cases h
  have hlast : l.getLast hne = s := by
    rw [List.getLast?_eq_getLast l hne] at h
    injection h
  rw [← hlast]
  exact (List.dropLast_append_getLast hne).symm

theorem idxSet_ext {A B : Index} (hAB : ∀ k', idxLookup A k' = idxLookup B k')
    (k : Bytes) (loc : RecordLocation) (k' : Bytes) :
    idxLookup (idxSet A k loc) k' = idxLookup (idxSet B k loc) k' := by
  by_cases hk : k' = k
  · subst hk
    rw [idxLookup_set_self, idxLookup_set_self]
  · rw [idxLookup_set_ne _ _ _ _ hk, idxLookup_set_ne _ _ _ _ hk, hAB]

theorem idxErase_ext {A B : Index} (hAB : ∀ k', idxLookup A k' = idxLookup B k')
    (k : Bytes) (k' : Bytes) :
    idxLookup (idxErase A k) k' = idxLookup (idxErase B k) k' := by
  by_cases hk : k' = k
  · subst hk
    rw [idxLookup_erase_self, idxLookup_erase_self]
  · rw [idxLookup_erase_ne _ _ _ hk, idxLookup_erase_ne _ _ _ hk, hAB]

/-- Appending one record to the active segment: the structural effects on
the segment list. -/
theorem write_active_segs (H : HashFn) {db : DB} (inv : Inv H db) {seg : Segment}
    (hseg : db.segments.getLast? = some seg) (wt : Nat) (k v : Bytes)
    (hwt01 : wt = TypeDelete ∨ wt = TypeSet)
    (hk : k.length < 2 ^ 32) (hv : v.length < 2 ^ 32) :
    (db.segments.dropLast ++ [(seg.write H wt k v).2]) ≠ [] ∧
    (∀ s ∈ db.segments.dropLast ++ [(seg.write H wt k v).2], s.size = s.data.length) ∧
    (∀ s ∈ db.segments.dropLast ++ [(seg.write H wt k v).2], CleanSeg H s) ∧
    (db.segments.dropLast ++ [(seg.write H wt k v).2]).map (·.id) =
      db.segments.map (·.id) ∧
    replayAll H (db.segments.dropLast ++ [(seg.write H wt k v).2]) =
      applyRec seg.id (replayAll H db.segments) ⟨k, v, seg.size, wt⟩ := by
  have hdecomp := eq_dropLast_append hseg
  have hsegmem : seg ∈ db.segments := by
    rw [hdecomp]
    simp
  have hsub : ∀ s ∈ db.segments.dropLast, s ∈ db.segments := by
    intro s hs
    exact List.dropLast_subset _ hs
  have hsize := inv.sizes seg hsegmem
  obtain ⟨rl, hdata, hrlwf, hrl01⟩ := inv.clean seg hsegmem
  have hwt256 : wt < 256 := by
    rcases hwt01 with h | h <;> rw [h] <;> simp [TypeDelete, TypeSet]
  have hnewwf : WfRaw ⟨wt, k, v⟩ := ⟨hk, hv, hwt256⟩
  have hdata' : (seg.write H wt k v).2.data = encodeAll H (rl ++ [⟨wt, k, v⟩]) := by
    rw [Segment.write, encodeAll_append, encodeAll, encodeAll, List.append_nil, hdata]
  have hrecs' : segRecs H (seg.write H wt k v).2 =
      segRecs H seg ++ [⟨k, v, seg.size, wt⟩] := by
    rw [segRecs_clean H hdata' (by
      intro r hr
      rcases List.mem_append.mp hr with h | h
      · exact hrlwf r h
      · rw [List.mem_singleton.mp h]
        exact hnewwf)]
    rw [@recsWith_append H, segRecs_clean H hdata hrlwf, recsWith, recsWith]
    have : (encodeAll H rl).length = seg.size := by
      rw [← hdata, hsize]
    rw [this]
    simp
  refine ⟨by simp, ?_, ?_, ?_, ?_⟩
  · intro s hs
    rcases List.mem_append.mp hs with h | h
    · exact inv.sizes s (hsub s h)
    · rw [List.mem_singleton.mp h, Segment.write]
      simp [hsize, encodeRecord_length, hdata]
  · intro s hs
    rcases List.mem_append.mp hs with h | h
    · exact inv.clean s (hsub s h)
    · rw [List.mem_singleton.mp h]
      refine ⟨rl ++ [⟨wt, k, v⟩], hdata', ?_, ?_⟩
      · intro r hr
        rcases List.mem_append.mp hr with h | h
        · exact hrlwf r h
        · rw [List.mem_singleton.mp h]
          exact hnewwf
      · intro r hr
        rcases List.mem_append.mp hr with h | h
        · exact hrl01 r h
        · rw [List.mem_singleton.mp h]
          exact hwt01
  · conv_rhs => rw [hdecomp]
    simp [Segment.write]
  · conv_rhs => rw [hdecomp]
    rw [replayAll_concat, replayAll_concat, replaySeg, replaySeg, hrecs',
      List.foldl_append, List.foldl_cons, List.foldl_nil]
    rfl

theorem inv_addSegment (H : HashFn) {db : DB} (inv : Inv H db) :
    Inv H db.addSegment := by
  have hfresh : db.idCtr ∉ db.segments.map (·.id) := by
    intro hmem
    obtain ⟨s, hs, hid⟩ := List.mem_map.mp hmem
    exact Nat.lt_irrefl _ (hid ▸ inv.idsLt s hs)
  refine ⟨by simp [DB.addSegment], ?_, ?_, ?_, ?_, ?_, ?_⟩
  · intro s hs
    rcases List.mem_append.mp hs with h | h
    · exact inv.sizes s h
    · rw [List.mem_singleton.mp h]
      rfl
  · intro s hs
    rcases List.mem_append.mp hs with h | h
    · exact inv.clean s h
    · rw [List.mem_singleton.mp h]
      exact ⟨[], rfl, by simp, by simp⟩
  · rw [DB.addSegment]
    simp only [List.map_append, List.map_cons, List.map_nil]
    rw [List.nodup_append]
    exact ⟨inv.idsNodup, List.nodup_singleton _, by simpa using hfresh⟩
  · intro s hs
    rcases List.mem_append.mp hs with h | h
    · exact Nat.lt_succ_of_lt (inv.idsLt s h)
    · rw [List.mem_singleton.mp h]
      exact Nat.lt_succ_self _
  · rfl
  · intro k
    rw [show db.addSegment.segments = db.segments ++ [⟨db.idCtr, [], 0⟩] from rfl]
    rw [replayAll_concat, replaySeg, show segRecs H ⟨db.idCtr, [], 0⟩ = [] by
      rw [segRecs, scanFrom, dif_pos (by simp [hdrLen])]]
    rw [List.foldl_nil]
    exact inv.replayEq k

theorem inv_checkRollover (H : HashFn) {db : DB} (inv : Inv H db) (seg : Segment) :
    Inv H (db.checkRolloverAndMerge seg) := by
  rw [DB.checkRolloverAndMerge]
  by_cases h : seg.size < db.rolloverThreshold
  · rw [if_pos h]
    exact inv
  · rw [if_neg h]
    exact inv_addSegment H inv

theorem inv_setOp (H : HashFn) {db : DB} (inv : Inv H db) (k v : Bytes)
    (hk : k.length < 2 ^ 32) (hv : v.length < 2 ^ 32) :
    Inv H (db.setOp H k v) := by
  obtain ⟨seg, hseg⟩ := Option.ne_none_iff_exists'.mp
    (mt List.getLast?_eq_none_iff.mp inv.ne)
  obtain ⟨hne, hsizes, hclean, hids, hreplay⟩ :=
    write_active_segs H inv hseg TypeSet k v (Or.inr rfl) hk hv
  simp only [DB.setOp, hseg]
  apply inv_checkRollover
  refine ⟨hne, hsizes, hclean, by rw [hids]; exact inv.idsNodup, ?_,
    by rw [hids]; exact inv.manifestSync, ?_⟩
  · intro s hs
    have : s.id ∈ db.segments.map (·.id) := by
      rw [← hids]
      exact List.mem_map_of_mem (·.id) hs
    obtain ⟨s₀, hs₀, hid⟩ := List.mem_map.mp this
    exact hid ▸ inv.idsLt s₀ hs₀
  · intro k'
    rw [hreplay, show (Segment.write H seg TypeSet k v).1 = seg.size from rfl,
      applyRec, if_pos rfl]
    exact idxSet_ext inv.replayEq k _ k'

theorem inv_deleteOp (H : HashFn) {db : DB} (inv : Inv H db) (k : Bytes)
    (hk : k.length < 2 ^ 32) {db' : DB} (hdel : db.deleteOp H k = .ok db') :
    Inv H db' := by
  rw [DB.deleteOp] at hdel
  cases hlook : idxLookup db.index k with
  | none => rw [hlook] at hdel; cases hdel
  | some loc =>
    rw [hlook] at hdel
    obtain ⟨seg, hseg⟩ := Option.ne_none_iff_exists'.mp
      (mt List.getLast?_eq_none_iff.mp inv.ne)
    rw [hseg] at hdel
    simp only at hdel
    obtain ⟨hne, hsizes, hclean, hids, hreplay⟩ :=
      write_active_segs H inv hseg TypeDelete k [] (Or.inl rfl) hk (by norm_num)
    cases hdel
    apply inv_checkRollover
    refine ⟨hne, hsizes, hclean, by rw [hids]; exact inv.idsNodup, ?_,
      by rw [hids]; exact inv.manifestSync, ?_⟩
    · intro s hs
      have : s.id ∈ db.segments.map (·.id) := by
        rw [← hids]
        exact List.mem_map_of_mem (·.id) hs
      obtain ⟨s₀, hs₀, hid⟩ := List.mem_map.mp this
      exact hid ▸ inv.idsLt s₀ hs₀
    · intro k'
      rw [hreplay, applyRec, if_neg (by simp [TypeDelete, TypeSet]), if_pos rfl]
      exact idxErase_ext inv.replayEq k k'

theorem inv_applyOp (H : HashFn) {db : DB} (inv : Inv H db) {op : Op}
    (hop : op.Wf) : Inv H (db.applyOp H op) := by
  cases op with
  | set k v => exact inv_setOp H inv k v hop.1 hop.2
  | del k =>
    rw [DB.applyOp]
    cases hdel : db.deleteOp H k with
    | error e => exact inv
    | ok db' => exact inv_deleteOp H inv k hop hdel

theorem inv_applyOps (H : HashFn) {db : DB} (inv : Inv H db) {ops : List Op}
    (hops : ∀ op ∈ ops, op.Wf) : Inv H (db.applyOps H ops) := by
  induction ops generalizing db with
  | nil => exact inv
  | cons op ops ih =>
    rw [DB.applyOps, List.foldl_cons]
    exact ih (inv_applyOp H inv (hops op (by simp)))
      (fun o ho => hops o (by simp [ho]))

/-! ### Frame lemmas for `Get` across other operations -/

theorem checkRollover_index (db : DB) (s : Segment) :
    (db.checkRolloverAndMerge s).index = db.index := by
  rw [DB.checkRolloverAndMerge]
  by_cases h : s.size < db.rolloverThreshold
  · rw [if_pos h]
  · rw [if_neg h]
    rfl

theorem mem_checkRollover {db : DB} {s x : Segment} (hx : x ∈ db.segments) :
    x ∈ (db.checkRolloverAndMerge s).segments := by
  rw [DB.checkRolloverAndMerge]
  by_cases h : s.size < db.rolloverThreshold
  · rw [if_pos h]
    exact hx
  · rw [if_neg h]
    exact List.mem_append_left _ hx

/-- Operations on other keys leave a key's directory entry unchanged. -/
theorem applyOp_lookup_ne (H : HashFn) (db : DB) (op : Op) (k : Bytes)
    (hne : op.key ≠ k) :
    idxLookup (db.applyOp H op).index k = idxLookup db.index k := by
  cases op with
  | set k' v' =>
    rw [DB.applyOp, DB.setOp]
    cases hseg : db.segments.getLast? with
    | none => rfl
    | some seg =>
      simp only
      rw [checkRollover_index]
      exact idxLookup_set_ne _ _ _ _ (fun h => hne h.symm)
  | del k' =>
    rw [DB.applyOp]
    cases hdel : db.deleteOp H k' with
    | error e => rfl
    | ok db' =>
      rw [DB.deleteOp] at hdel
      cases hlook : idxLookup db.index k' with
      | none => rw [hlook] at hdel; cases hdel
      | some loc =>
        rw [hlook] at hdel
        cases hseg : db.segments.getLast? with
        | none =>
          rw [hseg] at hdel
          cases hdel
          rfl
        | some seg =>
          rw [hseg] at hdel
          simp only at hdel
          cases hdel
          rw [checkRollover_index]
          exact idxLookup_erase_ne _ _ _ (fun h => hne h.symm)

/-- An operation only appends to segment files: every segment before the
operation survives with the same id and its data as a prefix. -/
theorem applyOp_seg_extend (H : HashFn) (db : DB) (op : Op) :
    ∀ s ∈ db.segments, ∃ s' ∈ (db.applyOp H op).segments,
      s'.id = s.id ∧ ∃ ext, s'.data = s.data ++ ext := by
  have hbase : ∀ (d : DB) (sg : Segment) (s : Segment), s ∈ d.segments.dropLast →
      s ∈ d.segments.dropLast ++ [sg] := fun d sg s hs => List.mem_append_left _ hs
  intro s hs
  cases op with
  | set k' v' =>
    rw [DB.applyOp, DB.setOp]
    cases hseg : db.segments.getLast? with
    | none => exact ⟨s, hs, rfl, [], by rw [List.append_nil]⟩
    | some seg =>
      simp only
      have hdecomp := eq_dropLast_append hseg
      rw [hdecomp] at hs
      rcases List.mem_append.mp hs with h | h
      · exact ⟨s, mem_checkRollover (hbase _ _ s h), rfl, [], by rw [List.append_nil]⟩
      · rw [List.mem_singleton.mp h]
        refine ⟨(seg.write H TypeSet k' v').2,
          mem_checkRollover (List.mem_append_right _ (by simp)), rfl,
          encodeRecord H TypeSet k' v', rfl⟩
  | del k' =>
    rw [DB.applyOp]
    cases hdel : db.deleteOp H k' with
    | error e => exact ⟨s, hs, rfl, [], by rw [List.append_nil]⟩
    | ok db' =>
      rw [DB.deleteOp] at hdel
      cases hlook : idxLookup db.index k' with
      | none => rw [hlook] at hdel; cases hdel
      | some loc =>
        rw [hlook] at hdel
        cases hseg : db.segments.getLast? with
        | none =>
          rw [hseg] at hdel
          cases hdel
          exact ⟨s, hs, rfl, [], by rw [List.append_nil]⟩
        | some seg =>
          rw [hseg] at hdel
          simp only at hdel
          cases hdel
          have hdecomp := eq_dropLast_append hseg
          rw [hdecomp] at hs
          rcases List.mem_append.mp hs with h | h
          · exact ⟨s, mem_checkRollover (hbase _ _ s h), rfl, [],
              by rw [List.append_nil]⟩
          · rw [List.mem_singleton.mp h]
            refine ⟨(seg.write H TypeDelete k' []).2,
              mem_checkRollover (List.mem_append_right _ (by simp)), rfl,
              encodeRecord H TypeDelete k' [], rfl⟩

/-- One operation on a different key does not change what `Get` returns
for `k`. -/
theorem get_preserved_op (H : HashFn) {db : DB} (inv : Inv H db) {op : Op}
    (hop : op.Wf) {k : Bytes} (hne : op.key ≠ k) :
    DB.get H (db.applyOp H op) k = DB.get H db k := by
  cases hlook : idxLookup db.index k with
  | none =>
    have hlook' := (applyOp_lookup_ne H db op k hne).trans hlook
    simp only [DB.get, hlook, hlook']
  | some loc =>
    obtain ⟨s, hs, hid, v, hv, hk32, pre, post, hdata, hpre⟩ := entry_spec inv hlook
    have h1 : DB.get H db k = .ok v :=
      get_of_entry inv.idsNodup hlook hs hid hdata hpre hk32 hv
    obtain ⟨s', hs', hid', ext, hext⟩ := applyOp_seg_extend H db op s hs
    have hlook' := (applyOp_lookup_ne H db op k hne).trans hlook
    have hdata' : s'.data = pre ++ (encodeRecord H TypeSet k v ++ (post ++ ext)) := by
      rw [hext, hdata]
      simp
    have h2 : DB.get H (db.applyOp H op) k = .ok v :=
      get_of_entry (inv_applyOp H inv hop).idsNodup hlook' hs' (hid'.trans hid) hdata' hpre
        hk32 hv
    rw [h1, h2]

/-- A sequence of operations avoiding `k` does not change what `Get`
returns for `k`. -/
theorem get_stable (H : HashFn) {db : DB} (inv : Inv H db) {ops : List Op}
    {k : Bytes} (hops : ∀ op ∈ ops, op.Wf ∧ op.key ≠ k) :
    DB.get H (db.applyOps H ops) k = DB.get H db k := by
  induction ops generalizing db with
  | nil => rfl
  | cons op ops ih =>
    rw [DB.applyOps, List.foldl_cons]
    have h1 := get_preserved_op H inv (hops op (by simp)).1 (hops op (by simp)).2
    have h2 := ih (inv_applyOp H inv (hops op (by simp)).1)
      (fun o ho => hops o (by simp [ho]))
    exact h2.trans h1

/-- Immediately after `Set(k, v)`, `Get(k)` returns `v`. -/
theorem get_after_set (H : HashFn) {db : DB} (inv : Inv H db) (k v : Bytes)
    (hk : k.length < 2 ^ 32) (hv : v.length < 2 ^ 32) :
    DB.get H (db.setOp H k v) k = .ok v := by
  obtain ⟨seg, hseg⟩ := Option.ne_none_iff_exists'.mp
    (mt List.getLast?_eq_none_iff.mp inv.ne)
  have hstate : db.setOp H k v =
      DB.checkRolloverAndMerge
        { db with
          segments := db.segments.dropLast ++ [(seg.write H TypeSet k v).2]
          index := idxSet db.index k ⟨seg.id, (seg.write H TypeSet k v).1⟩ }
        (seg.write H TypeSet k v).2 := by
    simp only [DB.setOp, hseg]
  have hsegmem : seg ∈ db.segments := by
    rw [eq_dropLast_append hseg]
    simp
  have hlook : idxLookup (db.setOp H k v).index k =
      some ⟨seg.id, (seg.write H TypeSet k v).1⟩ := by
    rw [hstate, checkRollover_index]
    exact idxLookup_set_self _ _ _
  have hmem : (seg.write H TypeSet k v).2 ∈ (db.setOp H k v).segments := by
    rw [hstate]
    exact mem_checkRollover (List.mem_append_right _ (by simp))
  have hdata : (seg.write H TypeSet k v).2.data =
      seg.data ++ (encodeRecord H TypeSet k v ++ []) := by
    rw [Segment.write, List.append_nil]
  exact get_of_entry (inv_setOp H inv k v hk hv).idsNodup hlook hmem rfl hdata
    (inv.sizes seg hsegmem).symm hk hv

/-- Immediately after a successful `Delete(k)`, `Get(k)` is
`key not found`. -/
theorem get_after_delete (H : HashFn) {db : DB} (inv : Inv H db) {k : Bytes}
    {db' : DB} (hdel : db.deleteOp H k = .ok db') :
    DB.get H db' k = .error .keyNotFound := by
  rw [DB.deleteOp] at hdel
  cases hlook : idxLookup db.index k with
  | none => rw [hlook] at hdel; cases hdel
  | some loc =>
    rw [hlook] at hdel
    obtain ⟨seg, hseg⟩ := Option.ne_none_iff_exists'.mp
      (mt List.getLast?_eq_none_iff.mp inv.ne)
    rw [hseg] at hdel
    simp only at hdel
    cases hdel
    have hlook' : idxLookup
        (DB.checkRolloverAndMerge
          { db with
            segments := db.segments.dropLast ++ [(seg.write H TypeDelete k []).2]
            index := idxErase db.index k }
          (seg.write H TypeDelete k []).2).index k = none := by
      rw [checkRollover_index]
      exact idxLookup_erase_self _ _
    simp only [DB.get, hlook']

/-! ## C1: read-after-write visibility -/

/-- **C1.** Read-after-write visibility: after `Set(k, v)` succeeds, every
subsequent `Get(k)` returns `v` across any sequence of further operations
that do not touch `k`; and after a successful `Delete(k)`, `Get(k)` returns
`key not found` across any such sequence, until `k` is written again. -/
theorem read_after_write_visibility (H : HashFn) (db : DB) (inv : Inv H db)
    (k v : Bytes) (hk : k.length < 2 ^ 32) (hv : v.length < 2 ^ 32)
    (ops : List Op) (hops : ∀ op ∈ ops, op.Wf ∧ op.key ≠ k) :
    DB.get H (DB.applyOps H (db.setOp H k v) ops) k = .ok v ∧
    (∀ db', db.deleteOp H k = .ok db' →
      DB.get H (DB.applyOps H db' ops) k = .error .keyNotFound) := by
  constructor
  · rw [get_stable H (inv_setOp H inv k v hk hv) hops]
    exact get_after_set H inv k v hk hv
  · intro db' hdel
    rw [get_stable H (inv_deleteOp H inv k hk hdel) hops]
    exact get_after_delete H inv hdel

/-! ### Concrete instances for witnesses -/

/-- A concrete 64-bit hash for witnesses (any deterministic function into
`uint64` instantiates the abstract `xxh3`). -/
def hashZero : HashFn := ⟨fun _ => 0, fun _ => by norm_num⟩

/-- The state `Open` produces on an empty directory: one empty segment with
id 1, an empty directory, counter 2, manifest `[1]` and default options. -/
def db0 : DB :=
  { segments := [⟨1, [], 0⟩]
    index := []
    idCtr := 2
    manifest := [1]
    fsync := false
    mergeEnabled := true
    checksumEnabled := true
    rolloverThreshold := 1048576
    mergeThreshold := 100 }

theorem segRecs_empty (H : HashFn) (i : Nat) : segRecs H ⟨i, [], 0⟩ = [] := by
  rw [segRecs, scanFrom, dif_pos (by simp [hdrLen])]

theorem inv_db0 : Inv hashZero db0 := by
  refine ⟨by simp [db0], ?_, ?_, by simp [db0], ?_, rfl, ?_⟩
  · intro s hs
    rw [List.mem_singleton.mp hs]
    rfl
  · intro s hs
    rw [List.mem_singleton.mp hs]
    exact ⟨[], rfl, by simp, by simp⟩
  · intro s hs
    rw [List.mem_singleton.mp hs]
    norm_num [db0]
  · intro k
    rw [show db0.segments = [⟨1, [], 0⟩] from rfl, replayAll, List.foldl_cons,
      List.foldl_nil, replaySeg, segRecs_empty, List.foldl_nil]
    rfl

/-- Witness for C1 at a concrete state: `Set [1] [2]`, then an unrelated
`Set [3] [4]` and `Delete`-path check. -/
theorem read_after_write_visibility_witness :
    Inv hashZero db0 ∧ ([1] : Bytes).length < 2 ^ 32 ∧ ([2] : Bytes).length < 2 ^ 32 ∧
    (∀ op ∈ [Op.set [3] [4]], op.Wf ∧ op.key ≠ [1]) ∧
    (DB.get hashZero (DB.applyOps hashZero (db0.setOp hashZero [1] [2])
      [Op.set [3] [4]]) [1] = .ok [2] ∧
    (∀ db', db0.deleteOp hashZero [1] = .ok db' →
      DB.get hashZero (DB.applyOps hashZero db' [Op.set [3] [4]]) [1] =
        .error .keyNotFound)) :=
  ⟨inv_db0, by norm_num, by norm_num,
    by
      intro op hop
      rw [List.mem_singleton.mp hop]
      exact ⟨⟨by norm_num, by norm_num⟩, by simp [Op.key]⟩,
    read_after_write_visibility hashZero db0 inv_db0 [1] [2] (by norm_num)
      (by norm_num) [Op.set [3] [4]]
      (by
        intro op hop
        rw [List.mem_singleton.mp hop]
        exact ⟨⟨by norm_num, by norm_num⟩, by simp [Op.key]⟩)⟩

/-! ## C10: Get is effect-free -/

/-- **C10.** `Get` is effect-free: on every key and in every branch
(missing key, read error, tombstone, success) it returns the same result
as the read-only `DB.get` and leaves every component of the state — the
segment list (hence every segment's id, size and file contents), the key
directory, the manifest, and the segment-id counter — unchanged. -/
theorem get_effect_free (H : HashFn) (db : DB) (k : Bytes) :
    (DB.getFull H db k).1 = DB.get H db k ∧
    (DB.getFull H db k).2.segments = db.segments ∧
    (DB.getFull H db k).2.index = db.index ∧
    (DB.getFull H db k).2.manifest = db.manifest ∧
    (DB.getFull H db k).2.idCtr = db.idCtr ∧
    (DB.getFull H db k).2 = db := by
  have h : DB.getFull H db k = (DB.get H db k, db) := by
    rw [DB.getFull, DB.get]
    cases h1 : idxLookup db.index k with
    | none => simp only [h1]
    | some loc =>
      cases h2 : db.findSeg loc.segId with
      | none => simp only [h1, h2]
      | some seg =>
        cases h3 : Segment.read H seg loc.offset db.checksumEnabled with
        | error e => simp only [h1, h2, h3]
        | ok p =>
          obtain ⟨val, wt⟩ := p
          by_cases hwt : wt = TypeDelete
          · simp only [h1, h2, h3, if_pos hwt]
          · simp only [h1, h2, h3, if_neg hwt]
  rw [h]
  exact ⟨rfl, rfl, rfl, rfl, rfl, rfl⟩

/-! ## C9: record wire format -/

theorem hdrBytes_drop_cs_append (c : Nat) (wt : Nat) (key val : Bytes) :
    (hdrBytes c key.length val.length (wt % 256)).drop 8 ++ (key ++ val) =
      recContent wt key val := by
  show (leBytes 4 key.length ++ (leBytes 4 val.length ++ ([wt % 256, 0] ++ [])) :
    Bytes) ++ (key ++ val) = recContent wt key val
  simp [recContent]

/-- Decoding a record whose stored checksum does not match the content
hash of everything after the checksum field fails with a checksum
mismatch. -/
theorem readRecord_corrupt (H : HashFn) (c wt : Nat) (key val : Bytes)
    (hc : c < 2 ^ 64) (hk : key.length < 2 ^ 32) (hv : val.length < 2 ^ 32)
    (hne : c ≠ H.fn (recContent wt key val)) :
    readRecord H (hdrBytes c key.length val.length (wt % 256) ++ (key ++ val)) 0
      true = .error .checksumMismatch := by
  have hlen : (hdrBytes c key.length val.length (wt % 256) ++ (key ++ val)).length =
      hdrLen + key.length + val.length := by
    simp [hdrBytes_length]
    omega
  have h1 : readAt (hdrBytes c key.length val.length (wt % 256) ++ (key ++ val)) 0
      hdrLen = some (hdrBytes c key.length val.length (wt % 256)) := by
    rw [readAt, if_pos (by omega), List.drop_zero, hdrBytes_append_take]
  have h2 : readAt (hdrBytes c key.length val.length (wt % 256) ++ (key ++ val))
      (0 + hdrLen) (key.length + val.length) = some (key ++ val) := by
    rw [readAt, if_pos (by omega), Nat.zero_add,
      drop_exact (hdrBytes_length _ _ _ _), List.take_of_length_le (by simp)]
  rw [readRecord, h1]
  simp only [parseHeader_hdrBytes _ _ _ _ hc hk hv, h2, csLen,
    hdrBytes_drop_cs_append]
  rw [if_pos (by simp [hne])]

/-- **C9.** The record wire format: the encoding is
`[8-byte checksum][4-byte key_len LE][4-byte val_len LE][write_type]
[reserved 0][key][val]`, one buffer of exactly `18 + key_len + val_len`
bytes; the stored checksum is the content hash of everything after the
checksum field (so it covers the length fields); decoding at the record's
offset with checksums enabled returns the value and write type when the
recomputed hash matches, and a `checksum mismatch` error when it does
not. -/
theorem record_wire_format (H : HashFn) (key val : Bytes) (wt : Nat)
    (pre post : Bytes) (c : Nat)
    (hk : key.length < 2 ^ 32) (hv : val.length < 2 ^ 32) (hw : wt < 256)
    (hc : c < 2 ^ 64) (hne : c ≠ H.fn (recContent wt key val)) :
    (encodeRecord H wt key val).length = 18 + key.length + val.length ∧
    encodeRecord H wt key val =
      leBytes 8 (H.fn (recContent wt key val)) ++ recContent wt key val ∧
    recContent wt key val =
      leBytes 4 key.length ++ leBytes 4 val.length ++ [wt % 256, 0] ++ key ++ val ∧
    read64 (encodeRecord H wt key val) =
      H.fn ((encodeRecord H wt key val).drop 8) ∧
    readRecord H (pre ++ (encodeRecord H wt key val ++ post)) pre.length true =
      .ok (val, wt) ∧
    readRecord H (hdrBytes c key.length val.length (wt % 256) ++ (key ++ val)) 0
      true = .error .checksumMismatch := by
  refine ⟨?_, rfl, rfl, ?_, ?_, readRecord_corrupt H c wt key val hc hk hv hne⟩
  · rw [encodeRecord_length, hdrLen]
  · rw [encodeRecord, read64_leBytes_append, Nat.mod_eq_of_lt (H.lt _),
      drop_exact (leBytes_length 8 _)]
  · rw [readRecord_encode H pre post key val wt true hk hv, Nat.mod_eq_of_lt hw]

/-- Witness for C9 at a concrete record. -/
theorem record_wire_format_witness :
    (([7] : Bytes).length < 2 ^ 32 ∧ ([8, 9] : Bytes).length < 2 ^ 32 ∧
      (1 : Nat) < 256 ∧ (5 : Nat) < 2 ^ 64 ∧
      (5 : Nat) ≠ hashZero.fn (recContent 1 [7] [8, 9])) ∧
    ((encodeRecord hashZero 1 [7] [8, 9]).length = 18 + ([7] : Bytes).length +
        ([8, 9] : Bytes).length ∧
      encodeRecord hashZero 1 [7] [8, 9] =
        leBytes 8 (hashZero.fn (recContent 1 [7] [8, 9])) ++ recContent 1 [7] [8, 9] ∧
      recContent 1 [7] [8, 9] =
        leBytes 4 ([7] : Bytes).length ++ leBytes 4 ([8, 9] : Bytes).length ++
          [1 % 256, 0] ++ [7] ++ [8, 9] ∧
      read64 (encodeRecord hashZero 1 [7] [8, 9]) =
        hashZero.fn ((encodeRecord hashZero 1 [7] [8, 9]).drop 8) ∧
      readRecord hashZero ([] ++ (encodeRecord hashZero 1 [7] [8, 9] ++ []))
        ([] : Bytes).length true = .ok ([8, 9], 1) ∧
      readRecord hashZero
        (hdrBytes 5 ([7] : Bytes).length ([8, 9] : Bytes).length (1 % 256) ++
          ([7] ++ [8, 9])) 0 true = .error .checksumMismatch) :=
  ⟨⟨by norm_num, by norm_num, by norm_num, by norm_num, by simp [hashZero]⟩,
    record_wire_format hashZero [7] [8, 9] 1 [] [] 5 (by norm_num) (by norm_num)
      (by norm_num) (by norm_num) (by simp [hashZero])⟩

/-! ## C5: torn tail versus mid-stream corruption at segment open -/

/-- **C5.** At segment open: an end-of-file inside a record's header or
payload is benign — the scanner stops, the size is set to the last
known-good end offset, the file is truncated to it and open succeeds;
whereas a record whose header parsed but whose checksum does not match
(checksums enabled) is a hard error and the segment open fails. -/
theorem torn_tail_vs_midstream (H : HashFn) (verify : Bool) (rl : List RawRec)
    (hwf : ∀ r ∈ rl, WfRaw r) (r : RawRec) (hr : WfRaw r) (t : Nat)
    (ht : t < (encodeRecord H r.wt r.key r.val).length)
    (c a b w : Nat) (payload rest : Bytes)
    (hc : c < 2 ^ 64) (ha : a < 2 ^ 32) (hb : b < 2 ^ 32)
    (hp : payload.length = a + b)
    (hmm : c ≠ H.fn ((hdrBytes c a b w).drop csLen ++ payload)) :
    parseSegmentData H verify
        (encodeAll H rl ++ (encodeRecord H r.wt r.key r.val).take t) =
      .ok (recsWith 0 rl, (encodeAll H rl).length, encodeAll H rl) ∧
    parseSegmentData H true
        (encodeAll H rl ++ (hdrBytes c a b w ++ (payload ++ rest))) =
      .error (.scan .checksumMismatch) := by
  constructor
  · have hscan := scanFrom_encodeAll_tail H verify rl hwf 0
      ((encodeRecord H r.wt r.key r.val).take t)
    rw [scanFrom_torn H verify _ r hr t ht] at hscan
    rw [parseSegmentData, hscan]
    simp only [List.append_nil, Nat.zero_add]
    rw [take_exact rfl]
  · have hscan := scanFrom_encodeAll_tail H true rl hwf 0
      (hdrBytes c a b w ++ (payload ++ rest))
    rw [scanFrom_corrupt H _ c a b w payload rest hc ha hb hp hmm] at hscan
    rw [parseSegmentData, hscan]

/-- Witness for C5: one good record, a torn tail of 5 bytes, and a
mismatching mid-stream header. -/
theorem torn_tail_vs_midstream_witness :
    ((∀ x ∈ [RawRec.mk 1 [7] [8]], WfRaw x) ∧ WfRaw ⟨1, [7], [8]⟩ ∧
      5 < (encodeRecord hashZero 1 [7] [8]).length ∧
      (1 : Nat) < 2 ^ 64 ∧ (0 : Nat) < 2 ^ 32 ∧ (0 : Nat) < 2 ^ 32 ∧
      ([] : Bytes).length = 0 + 0 ∧
      (1 : Nat) ≠ hashZero.fn ((hdrBytes 1 0 0 1).drop csLen ++ [])) ∧
    (parseSegmentData hashZero true
        (encodeAll hashZero [⟨1, [7], [8]⟩] ++
          (encodeRecord hashZero 1 [7] [8]).take 5) =
      .ok (recsWith 0 [⟨1, [7], [8]⟩], (encodeAll hashZero [⟨1, [7], [8]⟩]).length,
        encodeAll hashZero [⟨1, [7], [8]⟩]) ∧
    parseSegmentData hashZero true
        (encodeAll hashZero [⟨1, [7], [8]⟩] ++ (hdrBytes 1 0 0 1 ++ ([] ++ []))) =
      .error (.scan .checksumMismatch)) :=
  ⟨⟨by
      intro x hx
      rw [List.mem_singleton.mp hx]
      exact ⟨by norm_num, by norm_num, by norm_num⟩,
    ⟨by norm_num, by norm_num, by norm_num⟩,
    by rw [encodeRecord_length]; norm_num [hdrLen],
    by norm_num, by norm_num, by norm_num, by norm_num, by simp [hashZero]⟩,
    torn_tail_vs_midstream hashZero true [⟨1, [7], [8]⟩]
      (by
        intro x hx
        rw [List.mem_singleton.mp hx]
        exact ⟨by norm_num, by norm_num, by norm_num⟩)
      ⟨1, [7], [8]⟩ ⟨by norm_num, by norm_num, by norm_num⟩ 5
      (by rw [encodeRecord_length]; norm_num [hdrLen])
      1 0 0 1 [] [] (by norm_num) (by norm_num) (by norm_num) (by norm_num)
      (by simp [hashZero])⟩

/-! ## The data directory and `Open`

The persistent state is the manifest (its list of segment ids, in order)
and one file per segment.  File and directory-entry names are byte strings,
as in Go. -/

/-- The data directory contents relevant to the engine. -/
structure Disk where
  manifestIds : List Nat
  files : List (Nat × Bytes)
deriving DecidableEq, Repr

/-- `os.OpenFile` on a segment file: its contents, if present. -/
def Disk.file (d : Disk) (id : Nat) : Option Bytes :=
  (d.files.find? (fun p => p.1 = id)).map (·.2)

/-- The persistent state `Close` leaves behind (all appends are visible in
the files; `Close` only syncs and closes handles). -/
def DB.toDisk (db : DB) : Disk :=
  ⟨db.manifest, db.segments.map (fun s => (s.id, s.data))⟩

/-- ASCII decimal digits of a natural number. -/
def decDigits (n : Nat) : Bytes :=
  if n < 10 then [48 + n] else decDigits (n / 10) ++ [48 + n % 10]
decreasing_by exact Nat.div_lt_self (by omega) (by norm_num)

/-- `fmt.Sprintf("seg%03d", id)` as a byte string: `"seg"` followed by the
id, zero-padded to at least three digits. -/
def segNameBytes (id : Nat) : Bytes :=
  [115, 101, 103] ++
    (if id < 10 then [48, 48] else if id < 100 then [48] else []) ++ decDigits id

/-- `"MANIFEST"` as a byte string. -/
def manifestNameBytes : Bytes := [77, 65, 78, 73, 70, 69, 83, 84]

/-- A directory entry as `os.ReadDir` returns it. -/
structure DirEntry where
  name : Bytes
  isDir : Bool
deriving DecidableEq, Repr

/-- The result of running a piece of Go code that can panic. -/
inductive GoResult (α : Type) where
  | ok (a : α) : GoResult α
  | panicked : GoResult α
deriving DecidableEq, Repr

/-- The entry-collection loop of `DB.checkOrphanedSegments` (`db.go`):
skip directories; evaluate `name[:3] != "seg"` — which in Go panics when
the name is shorter than 3 bytes — and skip non-`seg` names; collect the
rest. -/
def collectSegEntries : List DirEntry → GoResult (List Bytes)
  | [] => .ok []
  | e :: es =>
    if e.isDir then collectSegEntries es
    else if e.name.length < 3 then .panicked
    else if e.name.take 3 ≠ [115, 101, 103] then collectSegEntries es
    else
      match collectSegEntries es with
      | .ok names => .ok (e.name :: names)
      | .panicked => .panicked

/-- `DB.checkOrphanedSegments` (`db.go`): read the directory, collect the
`seg*` file names, compare against the manifest's expectation and log a
warning for orphans.  The difference computation and the log never fail,
so apart from the possible panic in the collection loop the function
returns `nil`. -/
def checkOrphanedSegments (segIds : List Nat) (entries : List DirEntry) :
    GoResult Unit :=
  match collectSegEntries entries with
  | .panicked => .panicked
  | .ok _ => .ok ()

/-- The directory entries a data directory managed by the engine contains:
the manifest and one file per segment. -/
def diskEntries (d : Disk) : List DirEntry :=
  ⟨manifestNameBytes, false⟩ :: d.files.map (fun p => ⟨segNameBytes p.1, false⟩)

/-- Errors (and panics) of `Open`. -/
inductive OpenErr where
  /-- A segment file listed in the manifest failed to open. -/
  | missingFile : OpenErr
  /-- `parseSegment` failed. -/
  | loadSegment : SegErr → OpenErr
  /-- `log.Panicf`: a replayed record with an unhandled write type. -/
  | panicked : OpenErr
deriving DecidableEq, Repr

/-- The replay loop of `Open` (`db.go`): `Delete` removes the key, `Set`
points it at the record, any other write type panics. -/
def replayRecs (segId : Nat) (idx : Index) : List Rec → Except OpenErr Index
  | [] => .ok idx
  | r :: rs =>
    if r.wt = TypeDelete then replayRecs segId (idxErase idx r.key) rs
    else if r.wt = TypeSet then replayRecs segId (idxSet idx r.key ⟨segId, r.off⟩) rs
    else .error .panicked

/-- The segment-loading loop of `Open` (`db.go`): for each manifest id in
order, open and parse the segment file, replay its records into the
directory, and append the segment to the list. -/
def loadSegs (H : HashFn) (cs : Bool) (d : Disk) :
    List Nat → List Segment → Index → Except OpenErr (List Segment × Index)
  | [], segs, idx => .ok (segs, idx)
  | id :: ids, segs, idx =>
    match d.file id with
    | none => .error .missingFile
    | some data =>
      match parseSegmentData H cs data with
      | .error e => .error (.loadSegment e)
      | .ok (recs, size, trunc) =>
        match replayRecs id idx recs with
        | .error e => .error e
        | .ok idx' => loadSegs H cs d ids (segs ++ [⟨id, trunc, size⟩]) idx'

/-- The options `Open` accepts, with their defaults. -/
structure Options where
  fsync : Bool := false
  mergeEnabled : Bool := true
  checksumEnabled : Bool := true
  rolloverThreshold : Nat := 1048576
  mergeThreshold : Nat := 100
deriving DecidableEq, Repr

/-- `Open` (`db.go`): read the manifest, load the listed segments in the
listed order, set the id counter to one more than the maximum id, check
for orphaned `seg*` files (warn only — but the check can panic on short
names), and create a fresh segment when none exist. -/
def openDB (H : HashFn) (o : Options) (d : Disk) : Except OpenErr DB :=
  match loadSegs H o.checksumEnabled d d.manifestIds [] [] with
  | .error e => .error e
  | .ok (segs, idx) =>
    let maxId := d.manifestIds.foldr max 0
    let db : DB :=
      { segments := segs
        index := idx
        idCtr := maxId + 1
        manifest := d.manifestIds
        fsync := o.fsync
        mergeEnabled := o.mergeEnabled
        checksumEnabled := o.checksumEnabled
        rolloverThreshold := o.rolloverThreshold
        mergeThreshold := o.mergeThreshold }
    match checkOrphanedSegments d.manifestIds (diskEntries d) with
    | .panicked => .error .panicked
    | .ok _ => if db.segments.isEmpty then .ok db.addSegment else .ok db

/-! ### `Open` on a clean directory -/

theorem collect_mapped_ok (files : List (Nat × Bytes)) :
    ∃ ns, collectSegEntries (files.map (fun p => ⟨segNameBytes p.1, false⟩)) =
      .ok ns := by
  induction files with
  | nil => exact ⟨[], rfl⟩
  | cons p ps ih =>
    obtain ⟨ns, hns⟩ := ih
    rw [List.map_cons, collectSegEntries]
    rw [if_neg (by simp)]
    rw [if_neg (by simp [segNameBytes])]
    rw [if_neg (by
      simp only [segNameBytes, List.append_assoc]
      rw [take_exact (show ([115, 101, 103] : Bytes).length = 3 from rfl)]
      simp)]
    rw [hns]
    exact ⟨_, rfl⟩

theorem checkOrphaned_diskEntries_ok (segIds : List Nat) (d : Disk) :
    checkOrphanedSegments segIds (diskEntries d) = .ok () := by
  obtain ⟨ns, hns⟩ := collect_mapped_ok d.files
  rw [checkOrphanedSegments, diskEntries, collectSegEntries]
  rw [if_neg (by simp), if_neg (by simp [manifestNameBytes]),
    if_pos (by decide), hns]

theorem parseSegmentData_clean (H : HashFn) (cs : Bool) {s : Segment}
    (hc : CleanSeg H s) :
    parseSegmentData H cs s.data = .ok (segRecs H s, s.data.length, s.data) := by
  obtain ⟨rl, hdata, hwf, _⟩ := hc
  rw [parseSegmentData]
  rw [show scanFrom H cs 0 s.data = ⟨recsWith 0 rl, 0 + (encodeAll H rl).length, none⟩
    by rw [hdata]; exact scanFrom_encodeAll H cs rl hwf 0]
  simp only [Nat.zero_add]
  rw [segRecs_clean H hdata hwf, hdata, List.take_of_length_le (le_refl _)]

theorem segRecs_wt01 (H : HashFn) {s : Segment} (hc : CleanSeg H s) :
    ∀ rec ∈ segRecs H s, rec.wt = TypeDelete ∨ rec.wt = TypeSet := by
  obtain ⟨rl, hdata, hwf, h01⟩ := hc
  rw [segRecs_clean H hdata hwf]
  intro rec hrec
  obtain ⟨rl₁, r, rl₂, hrl, hr⟩ := @mem_recsWith H _ _ _ hrec
  rw [hr]
  exact h01 r (by rw [hrl]; simp)

theorem replayRecs_ok (segId : Nat) (idx : Index) (recs : List Rec)
    (h01 : ∀ r ∈ recs, r.wt = TypeDelete ∨ r.wt = TypeSet) :
    replayRecs segId idx recs = .ok (recs.foldl (applyRec segId) idx) := by
  induction recs generalizing idx with
  | nil => rfl
  | cons r rs ih =>
    rw [List.foldl_cons, replayRecs]
    rcases h01 r (by simp) with h | h
    · rw [if_pos h, applyRec, if_neg (by rw [h]; simp [TypeDelete, TypeSet]),
        if_pos h]
      exact ih _ (fun x hx => h01 x (by simp [hx]))
    · rw [if_neg (by rw [h]; simp [TypeDelete, TypeSet]), if_pos h, applyRec,
        if_pos h]
      exact ih _ (fun x hx => h01 x (by simp [hx]))

theorem segment_eta {s : Segment} (hsize : s.size = s.data.length) :
    (⟨s.id, s.data, s.data.length⟩ : Segment) = s := by
  cases s
  simp at hsize ⊢
  exact hsize.symm

theorem loadSegs_clean (H : HashFn) (cs : Bool) (d : Disk) (todo : List Segment)
    (hfile : ∀ s ∈ todo, d.file s.id = some s.data)
    (hclean : ∀ s ∈ todo, CleanSeg H s)
    (hsizes : ∀ s ∈ todo, s.size = s.data.length) :
    ∀ acc idx, loadSegs H cs d (todo.map (·.id)) acc idx =
      .ok (acc ++ todo, todo.foldl (replaySeg H) idx) := by
  induction todo with
  | nil =>
    intro acc idx
    simp [loadSegs]
  | cons s rest ih =>
    intro acc idx
    rw [List.map_cons, loadSegs]
    simp only [hfile s (by simp), parseSegmentData_clean H cs (hclean s (by simp)),
      replayRecs_ok s.id idx (segRecs H s) (segRecs_wt01 H (hclean s (by simp)))]
    rw [segment_eta (hsizes s (by simp))]
    rw [ih (fun x hx => hfile x (by simp [hx])) (fun x hx => hclean x (by simp [hx]))
      (fun x hx => hsizes x (by simp [hx]))]
    rw [List.foldl_cons]
    simp [replaySeg]

theorem find_file_list (segs : List Segment) (s : Segment)
    (hnd : (segs.map (·.id)).Nodup) (hs : s ∈ segs) :
    (segs.map (fun x => (x.id, x.data))).find? (fun p => p.1 = s.id) =
      some (s.id, s.data) := by
  induction segs with
  | nil => cases hs
  | cons s₀ t ih =>
    rw [List.map_cons, List.nodup_cons] at hnd
    rcases List.mem_cons.mp hs with h | h
    · subst h
      rw [List.map_cons, List.find?_cons_of_pos _ (by simp)]
    · have hne : ¬(s₀.id = s.id) := by
        intro he
        exact hnd.1 (he ▸ List.mem_map_of_mem (·.id) h)
      rw [List.map_cons, List.find?_cons_of_neg _ (by simpa using hne)]
      exact ih hnd.2 h

/-- `Open` on the directory of a clean segment list: every segment loads
back identically (parse returns the full file, the size is the file length,
truncation is a no-op) and the directory is the replay of the segments in
manifest order. -/
theorem openDB_segments (H : HashFn) (o : Options) (segs : List Segment)
    (hne : segs ≠ []) (hclean : ∀ s ∈ segs, CleanSeg H s)
    (hsizes : ∀ s ∈ segs, s.size = s.data.length)
    (hnd : (segs.map (·.id)).Nodup) :
    openDB H o ⟨segs.map (·.id), segs.map (fun s => (s.id, s.data))⟩ =
      .ok { segments := segs
            index := replayAll H segs
            idCtr := (segs.map (·.id)).foldr max 0 + 1
            manifest := segs.map (·.id)
            fsync := o.fsync
            mergeEnabled := o.mergeEnabled
            checksumEnabled := o.checksumEnabled
            rolloverThreshold := o.rolloverThreshold
            mergeThreshold := o.mergeThreshold } := by
  have hfile : ∀ s ∈ segs,
      (Disk.mk (segs.map (·.id)) (segs.map (fun x => (x.id, x.data)))).file s.id =
        some s.data := by
    intro s hs
    rw [Disk.file]
    simp only
    rw [find_file_list segs s hnd hs]
    rfl
  rw [openDB]
  rw [show (Disk.mk (segs.map (·.id)) (segs.map (fun x => (x.id, x.data)))).manifestIds
    = segs.map (·.id) from rfl]
  rw [loadSegs_clean H o.checksumEnabled _ segs hfile hclean hsizes [] []]
  simp only
  rw [checkOrphaned_diskEntries_ok]
  rw [if_neg (by simp [hne])]
  rfl

/-- `Open` after `Close` of a live database returns a database with the
same segments and a directory equal to the replay. -/
theorem openDB_toDisk (H : HashFn) (o : Options) {db : DB} (inv : Inv H db) :
    openDB H o db.toDisk =
      .ok { segments := db.segments
            index := replayAll H db.segments
            idCtr := (db.segments.map (·.id)).foldr max 0 + 1
            manifest := db.segments.map (·.id)
            fsync := o.fsync
            mergeEnabled := o.mergeEnabled
            checksumEnabled := o.checksumEnabled
            rolloverThreshold := o.rolloverThreshold
            mergeThreshold := o.mergeThreshold } := by
  rw [show db.toDisk = ⟨db.segments.map (·.id), db.segments.map (fun s => (s.id, s.data))⟩
    by rw [DB.toDisk, inv.manifestSync]]
  exact openDB_segments H o db.segments inv.ne inv.clean inv.sizes inv.idsNodup

/-! ## C3: persistence round trip -/

/-- **C3.** Persistence round trip: for any sequence of `Set`/`Delete`
operations applied to a live database, closing and reopening the directory
rebuilds a database with the same segments whose key directory agrees with
the in-memory directory at `Close` on every key, and `Get` returns the same
answer on every key (in particular `Set(k,v); Close; Open; Get(k) = v` and
a key deleted before `Close` stays `key not found`). -/
theorem persistence_round_trip (H : HashFn) (o : Options) (db : DB)
    (inv : Inv H db) (ops : List Op) (hops : ∀ op ∈ ops, op.Wf) :
    ∃ db₂, openDB H o (DB.applyOps H db ops).toDisk = .ok db₂ ∧
      db₂.segments = (DB.applyOps H db ops).segments ∧
      (∀ k, idxLookup db₂.index k = idxLookup (DB.applyOps H db ops).index k) ∧
      (∀ k, DB.get H db₂ k = DB.get H (DB.applyOps H db ops) k) := by
  have inv₁ : Inv H (DB.applyOps H db ops) := inv_applyOps H inv hops
  refine ⟨_, openDB_toDisk H o inv₁, rfl, inv₁.replayEq, ?_⟩
  intro k
  cases hlook : idxLookup (DB.applyOps H db ops).index k with
  | none =>
    have hl₂ : idxLookup (replayAll H (DB.applyOps H db ops).segments) k = none := by
      rw [inv₁.replayEq]
      exact hlook
    simp only [DB.get, hlook, hl₂]
  | some loc =>
    obtain ⟨s, hs, hid, v, hv, hk32, pre, post, hdata, hpre⟩ := entry_spec inv₁ hlook
    have h₁ := get_of_entry inv₁.idsNodup hlook hs hid hdata hpre hk32 hv
    have hl₂ : idxLookup (replayAll H (DB.applyOps H db ops).segments) k = some loc := by
      rw [inv₁.replayEq]
      exact hlook
    have h₂ := @get_of_entry H
      { segments := (DB.applyOps H db ops).segments
        index := replayAll H (DB.applyOps H db ops).segments
        idCtr := ((DB.applyOps H db ops).segments.map (·.id)).foldr max 0 + 1
        manifest := (DB.applyOps H db ops).segments.map (·.id)
        fsync := o.fsync
        mergeEnabled := o.mergeEnabled
        checksumEnabled := o.checksumEnabled
        rolloverThreshold := o.rolloverThreshold
        mergeThreshold := o.mergeThreshold } inv₁.idsNodup _ _ _ _ _ _
      hl₂ hs hid hdata hpre hk32 hv
    rw [h₁, h₂]

/-- Witness for C3: `Set [1] [2]` then `Delete [1]` on the fresh state, and
reopen. -/
theorem persistence_round_trip_witness :
    (Inv hashZero db0 ∧ (∀ op ∈ [Op.set [1] [2], Op.del [1]], op.Wf)) ∧
    (∃ db₂, openDB hashZero {} (DB.applyOps hashZero db0
        [Op.set [1] [2], Op.del [1]]).toDisk = .ok db₂ ∧
      db₂.segments = (DB.applyOps hashZero db0 [Op.set [1] [2], Op.del [1]]).segments ∧
      (∀ k, idxLookup db₂.index k =
        idxLookup (DB.applyOps hashZero db0 [Op.set [1] [2], Op.del [1]]).index k) ∧
      (∀ k, DB.get hashZero db₂ k =
        DB.get hashZero (DB.applyOps hashZero db0 [Op.set [1] [2], Op.del [1]]) k)) :=
  ⟨⟨inv_db0, by
      intro op hop
      rcases List.mem_cons.mp hop with h | h
      · rw [h]; exact ⟨by norm_num, by norm_num⟩
      · rw [List.mem_singleton.mp h]; exact (by norm_num : ([1] : Bytes).length < 2 ^ 32)⟩,
    persistence_round_trip hashZero {} db0 inv_db0 [Op.set [1] [2], Op.del [1]]
      (by
        intro op hop
        rcases List.mem_cons.mp hop with h | h
        · rw [h]; exact ⟨by norm_num, by norm_num⟩
        · rw [List.mem_singleton.mp h]
          exact (by norm_num : ([1] : Bytes).length < 2 ^ 32))⟩

/-! ## C4: replay order at Open -/

/-- **C4.** Replay order: `Open` loads the segments in their order of
appearance in the manifest and replays each segment's records in file
order, `Set` inserting and `Delete` removing keys (`replayAll` folds the
segments in listed order); and for a manifest listing ids out of numeric
order (`b < a` but `a` listed first), the listed order — not the numeric
order — decides the winner: the key ends up pointing into the last listed
segment. -/
theorem manifest_order_replay (H : HashFn) (o : Options)
    (segs : List Segment) (hne : segs ≠ []) (hclean : ∀ s ∈ segs, CleanSeg H s)
    (hsizes : ∀ s ∈ segs, s.size = s.data.length)
    (hnd : (segs.map (·.id)).Nodup)
    (a b : Nat) (hba : b < a) (k v₁ v₂ : Bytes)
    (hk : k.length < 2 ^ 32) (hv₁ : v₁.length < 2 ^ 32) (hv₂ : v₂.length < 2 ^ 32) :
    (∃ db₂, openDB H o ⟨segs.map (·.id), segs.map (fun s => (s.id, s.data))⟩ =
        .ok db₂ ∧ db₂.segments = segs ∧ db₂.index = replayAll H segs ∧
        db₂.manifest = segs.map (·.id)) ∧
    (∃ db₃, openDB H o
        ⟨[a, b],
          [(a, encodeAll H [⟨TypeSet, k, v₁⟩]), (b, encodeAll H [⟨TypeSet, k, v₂⟩])]⟩ =
        .ok db₃ ∧
      idxLookup db₃.index k = some ⟨b, 0⟩ ∧ DB.get H db₃ k = .ok v₂) := by
  constructor
  · exact ⟨_, openDB_segments H o segs hne hclean hsizes hnd, rfl, rfl, rfl⟩
  · have hwfA : ∀ r ∈ [RawRec.mk TypeSet k v₁], WfRaw r := by
      intro r hr
      rw [List.mem_singleton.mp hr]
      exact ⟨hk, hv₁, by norm_num [TypeSet]⟩
    have hwfB : ∀ r ∈ [RawRec.mk TypeSet k v₂], WfRaw r := by
      intro r hr
      rw [List.mem_singleton.mp hr]
      exact ⟨hk, hv₂, by norm_num [TypeSet]⟩
    have hab : ¬(a = b) := by omega
    have hcleanAB : ∀ s ∈
        [(⟨a, encodeAll H [⟨TypeSet, k, v₁⟩], (encodeAll H [⟨TypeSet, k, v₁⟩]).length⟩ :
          Segment),
         ⟨b, encodeAll H [⟨TypeSet, k, v₂⟩], (encodeAll H [⟨TypeSet, k, v₂⟩]).length⟩],
        CleanSeg H s := by
      intro s hs
      rcases List.mem_cons.mp hs with h | h
      · rw [h]
        exact ⟨[⟨TypeSet, k, v₁⟩], rfl, hwfA, by simp⟩
      · rw [List.mem_singleton.mp h]
        exact ⟨[⟨TypeSet, k, v₂⟩], rfl, hwfB, by simp⟩
    have hndAB : (([(⟨a, encodeAll H [⟨TypeSet, k, v₁⟩],
          (encodeAll H [⟨TypeSet, k, v₁⟩]).length⟩ : Segment),
        ⟨b, encodeAll H [⟨TypeSet, k, v₂⟩],
          (encodeAll H [⟨TypeSet, k, v₂⟩]).length⟩]).map (·.id)).Nodup := by
      simp [hab]
    have hopen := openDB_segments H o
      [⟨a, encodeAll H [⟨TypeSet, k, v₁⟩], (encodeAll H [⟨TypeSet, k, v₁⟩]).length⟩,
       ⟨b, encodeAll H [⟨TypeSet, k, v₂⟩], (encodeAll H [⟨TypeSet, k, v₂⟩]).length⟩]
      (by simp) hcleanAB
      (by
        intro s hs
        rcases List.mem_cons.mp hs with h | h
        · rw [h]
        · rw [List.mem_singleton.mp h])
      hndAB
    have hidx : replayAll H
        [⟨a, encodeAll H [⟨TypeSet, k, v₁⟩], (encodeAll H [⟨TypeSet, k, v₁⟩]).length⟩,
         ⟨b, encodeAll H [⟨TypeSet, k, v₂⟩], (encodeAll H [⟨TypeSet, k, v₂⟩]).length⟩] =
        idxSet (idxSet [] k ⟨a, 0⟩) k ⟨b, 0⟩ := by
      have hrecsA := @segRecs_clean H ⟨a, encodeAll H [⟨TypeSet, k, v₁⟩],
        (encodeAll H [⟨TypeSet, k, v₁⟩]).length⟩ [⟨TypeSet, k, v₁⟩] rfl hwfA
      have hrecsB := @segRecs_clean H ⟨b, encodeAll H [⟨TypeSet, k, v₂⟩],
        (encodeAll H [⟨TypeSet, k, v₂⟩]).length⟩ [⟨TypeSet, k, v₂⟩] rfl hwfB
      simp only [replayAll, replaySeg, List.foldl_cons, List.foldl_nil,
        hrecsA, hrecsB, recsWith, applyRec, eq_self_iff_true, if_true]
    have hlookB : idxLookup (replayAll H
        [⟨a, encodeAll H [⟨TypeSet, k, v₁⟩], (encodeAll H [⟨TypeSet, k, v₁⟩]).length⟩,
         ⟨b, encodeAll H [⟨TypeSet, k, v₂⟩],
           (encodeAll H [⟨TypeSet, k, v₂⟩]).length⟩]) k =
        some ⟨b, 0⟩ := by
      rw [hidx]
      exact idxLookup_set_self _ _ _
    refine ⟨_, hopen, hlookB, ?_⟩
    exact get_of_entry hndAB hlookB
      (by simp :
        (⟨b, encodeAll H [⟨TypeSet, k, v₂⟩],
          (encodeAll H [⟨TypeSet, k, v₂⟩]).length⟩ : Segment) ∈
        [(⟨a, encodeAll H [⟨TypeSet, k, v₁⟩],
          (encodeAll H [⟨TypeSet, k, v₁⟩]).length⟩ : Segment),
         ⟨b, encodeAll H [⟨TypeSet, k, v₂⟩],
          (encodeAll H [⟨TypeSet, k, v₂⟩]).length⟩])
      rfl
      (by simp [encodeAll] :
        (⟨b, encodeAll H [⟨TypeSet, k, v₂⟩],
          (encodeAll H [⟨TypeSet, k, v₂⟩]).length⟩ : Segment).data =
        [] ++ (encodeRecord H TypeSet k v₂ ++ []))
      rfl hk hv₂

/-- Witness for C4: ids 2 then 1 in the manifest (numerically out of
order); the last listed segment (id 1) wins for the key. -/
theorem manifest_order_replay_witness :
    (([(⟨1, [], 0⟩ : Segment)] ≠ []) ∧ (1 : Nat) < 2 ∧
      ([5] : Bytes).length < 2 ^ 32 ∧ ([1] : Bytes).length < 2 ^ 32 ∧
      ([2] : Bytes).length < 2 ^ 32) ∧
    ((∃ db₂, openDB hashZero {}
        ⟨[(⟨1, [], 0⟩ : Segment)].map (·.id),
         [(⟨1, [], 0⟩ : Segment)].map (fun s => (s.id, s.data))⟩ = .ok db₂ ∧
        db₂.segments = [⟨1, [], 0⟩] ∧
        db₂.index = replayAll hashZero [⟨1, [], 0⟩] ∧
        db₂.manifest = [(⟨1, [], 0⟩ : Segment)].map (·.id)) ∧
    (∃ db₃, openDB hashZero {}
        ⟨[2, 1],
          [(2, encodeAll hashZero [⟨TypeSet, [5], [1]⟩]),
           (1, encodeAll hashZero [⟨TypeSet, [5], [2]⟩])]⟩ = .ok db₃ ∧
      idxLookup db₃.index [5] = some ⟨1, 0⟩ ∧
      DB.get hashZero db₃ [5] = .ok [2])) :=
  ⟨⟨by simp, by norm_num, by norm_num, by norm_num, by norm_num⟩,
    manifest_order_replay hashZero {} [⟨1, [], 0⟩] (by simp)
      (by
        intro s hs
        rw [List.mem_singleton.mp hs]
        exact ⟨[], rfl, by simp, by simp⟩)
      (by
        intro s hs
        rw [List.mem_singleton.mp hs]
        rfl)
      (by simp) 2 1 (by norm_num) [5] [1] [2] (by norm_num) (by norm_num)
      (by norm_num)⟩

/-! ## C8: open-time orphan detection

The claim says the check never fails or panics for any directory content,
names of any length included.  The code evaluates `name[:3]` on every
non-directory entry before comparing it to `"seg"`; in Go this slicing
panics when the name is shorter than 3 bytes, so `Open` panics on a data
directory containing, e.g., a file named `"ab"`. -/

/-- **C8** (failing evaluation). A data directory containing a plain file
named `"ab"` (bytes `[97, 98]`, shorter than 3) makes
`checkOrphanedSegments` panic via `name[:3]`, instead of at most warning
and returning `nil` as the claim requires. -/
theorem orphan_check_panics_on_short_name :
    checkOrphanedSegments [1] [⟨[97, 98], false⟩] = .panicked := rfl

/-- The positive side: on directory entries that are directories or have
names of at least 3 bytes — in particular everything the engine itself
creates — the check indeed at most warns and returns `nil`. -/
theorem orphan_check_ok_of_long_names (segIds : List Nat)
    (entries : List DirEntry)
    (h : ∀ e ∈ entries, e.isDir = true ∨ 3 ≤ e.name.length) :
    checkOrphanedSegments segIds entries = .ok () := by
  rw [checkOrphanedSegments]
  suffices hs : ∃ ns, collectSegEntries entries = .ok ns by
    obtain ⟨ns, hns⟩ := hs
    rw [hns]
  induction entries with
  | nil => exact ⟨[], rfl⟩
  | cons e es ih =>
    obtain ⟨ns, hns⟩ := ih (fun x hx => h x (by simp [hx]))
    rw [collectSegEntries]
    by_cases hd : e.isDir
    · rw [if_pos hd]
      exact ⟨ns, hns⟩
    · rw [if_neg hd]
      have hlen : ¬(e.name.length < 3) := by
        rcases h e (by simp) with hdir | hl
        · exact absurd hdir hd
        · omega
      rw [if_neg hlen]
      by_cases hseg : e.name.take 3 ≠ [115, 101, 103]
      · rw [if_pos hseg]
        exact ⟨ns, hns⟩
      · rw [if_neg hseg, hns]
        exact ⟨_, rfl⟩

/-! ## The merge engine (`merge.go`)

The merge is modelled in the sequential schedule the test hooks pin down:
the scan phase reads the snapshot state, foreground operations run between
the scan and the install (`onMergeApply`), and the install runs under the
exclusive lock.  `changes` (`out.indexChanges`, a Go map) is an association
list with map semantics. -/

abbrev Changes := List (Bytes × (RecordLocation × RecordLocation))

/-- `out.indexChanges[key]` (map read). -/
def chLookup : Changes → Bytes → Option (RecordLocation × RecordLocation)
  | [], _ => none
  | (k', p) :: t, k => if k' = k then some p else chLookup t k

/-- `out.indexChanges[key] = [2]{before, after}` (map write). -/
def chSet (ch : Changes) (k : Bytes) (p : RecordLocation × RecordLocation) :
    Changes :=
  (k, p) :: ch.filter (fun q => q.1 ≠ k)

theorem chLookup_filter_ne (ch : Changes) (k k' : Bytes) (h : k' ≠ k) :
    chLookup (ch.filter (fun q => q.1 ≠ k)) k' = chLookup ch k' := by
  induction ch with
  | nil => rfl
  | cons q t ih =>
    obtain ⟨qk, qp⟩ := q
    rw [List.filter_cons]
    by_cases hq : qk = k
    · rw [if_neg (by simp [hq]), ih, chLookup,
        if_neg (by rw [hq]; exact fun hh => h hh.symm)]
    · rw [if_pos (by simp [hq]), chLookup, chLookup, ih]

theorem chLookup_set_self (ch : Changes) (k : Bytes)
    (p : RecordLocation × RecordLocation) :
    chLookup (chSet ch k p) k = some p := by
  rw [chSet, chLookup, if_pos rfl]

theorem chLookup_set_ne (ch : Changes) (k k' : Bytes)
    (p : RecordLocation × RecordLocation) (h : k' ≠ k) :
    chLookup (chSet ch k p) k' = chLookup ch k' := by
  rw [chSet, chLookup, if_neg (fun hh => h hh.symm), chLookup_filter_ne _ _ _ h]

theorem chSet_keys_nodup {ch : Changes} (hnd : (ch.map (·.1)).Nodup) (k : Bytes)
    (p : RecordLocation × RecordLocation) :
    ((chSet ch k p).map (·.1)).Nodup := by
  rw [chSet, List.map_cons, List.nodup_cons]
  constructor
  · intro hmem
    obtain ⟨q, hq, hq1⟩ := List.mem_map.mp hmem
    exact absurd hq1 (by simpa using (List.mem_filter.mp hq).2)
  · exact hnd.sublist ((List.filter_sublist ch).map _)

/-- The in-flight state of the scan phase: the finished output segments,
the current output segment (`mergeSeg`), the `indexChanges` map and the
segment-id counter. -/
structure MergeState where
  outPrev : List Segment
  cur : Segment
  changes : Changes
  ctr : Nat

/-- One record of an input segment in the scan loop of `DB.merge`
(`merge.go`): look the key up in the live directory; skip if absent or not
the latest (`loc.seg == seg && loc.offset == rec.off`, pointer equality
being id equality); otherwise roll the output segment over when it reached
the threshold, copy the record as a `Set`, and remember
`key → (location before, location after)`. -/
def stepRec (H : HashFn) (thr : Nat) (idx : Index) (segId : Nat)
    (st : MergeState) (rec : Rec) : MergeState :=
  match idxLookup idx rec.key with
  | none => st
  | some loc =>
    if loc.segId = segId ∧ loc.offset = rec.off then
      let st' := if st.cur.size ≥ thr then
          { st with
            outPrev := st.outPrev ++ [st.cur]
            cur := ⟨st.ctr, [], 0⟩
            ctr := st.ctr + 1 }
        else st
      let (off, cur') := st'.cur.write H TypeSet rec.key rec.val
      { st' with
        cur := cur'
        changes := chSet st'.changes rec.key (loc, ⟨st'.cur.id, off⟩) }
    else st

/-- Scan one input segment: fold `stepRec` over its records, as read by a
non-verifying scanner over the segment's file. -/
def scanSegStep (H : HashFn) (thr : Nat) (idx : Index) (st : MergeState)
    (seg : Segment) : MergeState :=
  (segRecs H seg).foldl (stepRec H thr idx seg.id) st

/-- The scan phase of `DB.merge`: snapshot the inactive segments (all but
the last), create the first output segment, and scan the inputs in order,
each with a non-verifying record scanner, folding `stepRec` over the
records.  Returns the output segments, the changes map, and the advanced
id counter. -/
def mergeScan (H : HashFn) (db : DB) :
    List Segment × Changes × Nat :=
  let inputLen := db.segments.length - 1
  let inputs := db.segments.take inputLen
  let st0 : MergeState := ⟨[], ⟨db.idCtr, [], 0⟩, [], db.idCtr + 1⟩
  let stF := inputs.foldl (scanSegStep H db.rolloverThreshold db.index) st0
  (stF.outPrev ++ [stF.cur], stF.changes, stF.ctr)

/-- One change of the reconciliation loop: fetch the current entry; skip a
deleted key (no entry); skip an overwritten key (current entry differs from
the recorded before-location); otherwise replace with the after-location. -/
def reconcileStep (idx : Index) (p : Bytes × (RecordLocation × RecordLocation)) :
    Index :=
  match idxLookup idx p.1 with
  | none => idx
  | some cur => if cur = p.2.1 then idxSet idx p.1 p.2.2 else idx

/-- The install step of `DB.merge`, under the exclusive lock: splice the
segment list (`out.segments ++ db.segments[inputLen:]`), reconcile the
directory (for each change, replace the entry only when the current entry
still equals the recorded before-location; skip deleted or overwritten
keys), and atomically rewrite the manifest.  The replaced input files are
closed and unlinked. -/
def installMerge (db₂ : DB) (outs : List Segment) (ch : Changes)
    (inputLen : Nat) : DB :=
  let segs := outs ++ db₂.segments.drop inputLen
  let idx := ch.foldl reconcileStep db₂.index
  { db₂ with segments := segs, index := idx, manifest := segs.map (·.id) }

/-- A full merge in the sequential schedule: scan against the snapshot
state, let the foreground operations `interOps` run (they see the id
counter already advanced by the merge's segment creations), then
install. -/
def mergeRun (H : HashFn) (db : DB) (interOps : List Op) : DB :=
  let (outs, ch, ctr') := mergeScan H db
  let db₂ := DB.applyOps H { db with idCtr := ctr' } interOps
  installMerge db₂ outs ch (db.segments.length - 1)

/-! ### The reconciliation loop, key by key -/

theorem reconcileStep_lookup_ne (idx : Index)
    (p : Bytes × (RecordLocation × RecordLocation)) (k : Bytes) (h : k ≠ p.1) :
    idxLookup (reconcileStep idx p) k = idxLookup idx k := by
  cases hl : idxLookup idx p.1 with
  | none => simp only [reconcileStep, hl]
  | some cur =>
    simp only [reconcileStep, hl]
    by_cases hc : cur = p.2.1
    · rw [if_pos hc]
      exact idxLookup_set_ne _ _ _ _ h
    · rw [if_neg hc]

theorem reconcile_frame (ch : Changes) (idx : Index) (k : Bytes)
    (h : k ∉ ch.map (·.1)) :
    idxLookup (ch.foldl reconcileStep idx) k = idxLookup idx k := by
  induction ch generalizing idx with
  | nil => rfl
  | cons q t ih =>
    rw [List.foldl_cons, ih _ (fun hm => h (by simp [hm]))]
    exact reconcileStep_lookup_ne idx q k (fun hk => h (by simp [hk]))

/-- The reconciliation loop, observed at one key: for a key in the changes
map the entry is replaced with the after-location exactly when the current
entry equals the before-location, kept otherwise, and a deleted key stays
deleted; keys outside the changes map are untouched. -/
theorem reconcile_lookup (ch : Changes) (hnd : (ch.map (·.1)).Nodup)
    (idx : Index) (k : Bytes) :
    idxLookup (ch.foldl reconcileStep idx) k =
      match chLookup ch k with
      | none => idxLookup idx k
      | some p =>
        match idxLookup idx k with
        | none => none
        | some cur => if cur = p.1 then some p.2 else some cur := by
  induction ch generalizing idx with
  | nil =>
    rw [List.foldl_nil, chLookup]
  | cons q t ih =>
    rw [List.map_cons, List.nodup_cons] at hnd
    rw [List.foldl_cons]
    by_cases hk : q.1 = k
    · subst hk
      have hnot : (q.1 : Bytes) ∉ t.map (·.1) := hnd.1
      rw [reconcile_frame t _ _ hnot]
      rw [show chLookup (q :: t) q.1 = some q.2 by rw [chLookup, if_pos rfl]]
      cases hl : idxLookup idx q.1 with
      | none => simp only [reconcileStep, hl]
      | some cur =>
        simp only [reconcileStep, hl]
        by_cases hc : cur = q.2.1
        · rw [if_pos hc, if_pos hc]
          exact idxLookup_set_self _ _ _
        · rw [if_neg hc, if_neg hc]
          exact hl
    · rw [ih hnd.2]
      rw [show chLookup (q :: t) k = chLookup t k by
        rw [chLookup, if_neg hk]]
      rw [reconcileStep_lookup_ne idx q k (fun hh => hk hh.symm)]

/-! ### Helper lemmas for the scan phase -/

/-- A `Set` record for `k ↦ v` embedded in one of `segs` at `loc`. -/
def EmbeddedAt (H : HashFn) (segs : List Segment) (loc : RecordLocation)
    (k v : Bytes) : Prop :=
  ∃ s ∈ segs, s.id = loc.segId ∧
    ∃ pre post, s.data = pre ++ (encodeRecord H TypeSet k v ++ post) ∧
      pre.length = loc.offset

theorem get_of_embedded {H : HashFn} {db : DB}
    (hnd : (db.segments.map (·.id)).Nodup) {k v : Bytes} {loc : RecordLocation}
    (h : idxLookup db.index k = some loc) (he : EmbeddedAt H db.segments loc k v)
    (hk : k.length < 2 ^ 32) (hv : v.length < 2 ^ 32) :
    DB.get H db k = .ok v := by
  obtain ⟨s, hs, hid, pre, post, hdata, hpre⟩ := he
  exact get_of_entry hnd h hs hid hdata hpre hk hv

theorem seg_unique_by_id {segs : List Segment} (hnd : (segs.map (·.id)).Nodup)
    {s t : Segment} (hs : s ∈ segs) (ht : t ∈ segs) (hid : s.id = t.id) :
    s = t := by
  induction segs with
  | nil => cases hs
  | cons u rest ih =>
    rw [List.map_cons, List.nodup_cons] at hnd
    rcases List.mem_cons.mp hs with h₁ | h₁ <;> rcases List.mem_cons.mp ht with h₂ | h₂
    · rw [h₁, h₂]
    · exact absurd (h₁ ▸ hid ▸ List.mem_map_of_mem (·.id) h₂) hnd.1
    · exact absurd (h₂ ▸ hid.symm ▸ List.mem_map_of_mem (·.id) h₁) hnd.1
    · exact ih hnd.2 h₁ h₂

theorem recsWith_off_ge {rl : List RawRec} {pos : Nat} {x : Rec}
    (hx : x ∈ recsWith pos rl) : pos ≤ x.off := by
  induction rl generalizing pos with
  | nil => cases hx
  | cons r rl ih =>
    rw [recsWith] at hx
    rcases List.mem_cons.mp hx with h | h
    · rw [h]
    · have := ih h
      omega

theorem recsWith_off_unique {rl : List RawRec} {pos : Nat} {r₁ r₂ : Rec}
    (h₁ : r₁ ∈ recsWith pos rl) (h₂ : r₂ ∈ recsWith pos rl)
    (hoff : r₁.off = r₂.off) : r₁ = r₂ := by
  induction rl generalizing pos with
  | nil => cases h₁
  | cons r rl ih =>
    rw [recsWith] at h₁ h₂
    rcases List.mem_cons.mp h₁ with ha | ha <;> rcases List.mem_cons.mp h₂ with hb | hb
    · rw [ha, hb]
    · have := recsWith_off_ge hb
      rw [ha] at hoff
      simp at hoff this
      have h18 : hdrLen = 18 := rfl
      omega
    · have := recsWith_off_ge ha
      rw [hb] at hoff
      simp at hoff this
      have h18 : hdrLen = 18 := rfl
      omega
    · exact ih ha hb

theorem segRecs_off_unique (H : HashFn) {s : Segment} (hc : CleanSeg H s)
    {r₁ r₂ : Rec} (h₁ : r₁ ∈ segRecs H s) (h₂ : r₂ ∈ segRecs H s)
    (hoff : r₁.off = r₂.off) : r₁ = r₂ := by
  obtain ⟨rl, hdata, hwf, _⟩ := hc
  rw [segRecs_clean H hdata hwf] at h₁ h₂
  exact recsWith_off_unique h₁ h₂ hoff

/-- Under the invariant, a directory entry is a scanned `Set` record of the
segment its location names. -/
theorem entry_rec {H : HashFn} {db : DB} (inv : Inv H db) {k : Bytes}
    {loc : RecordLocation} (h : idxLookup db.index k = some loc) :
    ∃ s ∈ db.segments, s.id = loc.segId ∧ ∃ rec ∈ segRecs H s,
      rec.key = k ∧ rec.off = loc.offset ∧ rec.wt = TypeSet := by
  rw [← inv.replayEq] at h
  exact replayAll_lookup h

/-- The invariant the scan phase maintains: every recorded change binds a
key to its live directory entry, located in an input segment, with the same
value embedded at the before-location (in the live segments) and at the
after-location (in the output segments); output ids are fresh, unique and
below the counter; the current output's tracked size is its file length. -/
structure MergeWInv (H : HashFn) (db : DB) (st : MergeState) : Prop where
  changesSpec : ∀ k bef aft, chLookup st.changes k = some (bef, aft) →
    idxLookup db.index k = some bef ∧
    bef.segId ∈ (db.segments.take (db.segments.length - 1)).map (·.id) ∧
    ∃ v, k.length < 2 ^ 32 ∧ v.length < 2 ^ 32 ∧
      EmbeddedAt H db.segments bef k v ∧
      EmbeddedAt H (st.outPrev ++ [st.cur]) aft k v
  changesNodup : (st.changes.map (·.1)).Nodup
  outNodup : ((st.outPrev ++ [st.cur]).map (·.id)).Nodup
  outIds : ∀ s ∈ st.outPrev ++ [st.cur], db.idCtr ≤ s.id ∧ s.id < st.ctr
  curSize : st.cur.size = st.cur.data.length
  ctrGe : db.idCtr ≤ st.ctr

theorem embedded_mono {H : HashFn} {outs outs' : List Segment}
    (hext : ∀ s ∈ outs, ∃ s' ∈ outs', s'.id = s.id ∧ ∃ ext, s'.data = s.data ++ ext)
    {loc : RecordLocation} {k v : Bytes} (he : EmbeddedAt H outs loc k v) :
    EmbeddedAt H outs' loc k v := by
  obtain ⟨s, hs, hid, pre, post, hdata, hpre⟩ := he
  obtain ⟨s', hs', hid', ext, hext'⟩ := hext s hs
  exact ⟨s', hs', hid'.trans hid, pre, post ++ ext,
    by rw [hext', hdata]; simp, hpre⟩

theorem winv_rollover (H : HashFn) {db : DB} {st : MergeState}
    (hw : MergeWInv H db st) :
    MergeWInv H db ⟨st.outPrev ++ [st.cur], ⟨st.ctr, [], 0⟩, st.changes,
      st.ctr + 1⟩ := by
  have hext : ∀ s ∈ st.outPrev ++ [st.cur],
      ∃ s' ∈ (st.outPrev ++ [st.cur]) ++ [(⟨st.ctr, [], 0⟩ : Segment)],
        s'.id = s.id ∧ ∃ ext, s'.data = s.data ++ ext :=
    fun s hs => ⟨s, List.mem_append_left _ hs, rfl, [], by simp⟩
  refine ⟨?_, hw.changesNodup, ?_, ?_, rfl, Nat.le_succ_of_le hw.ctrGe⟩
  · intro k bef aft h
    obtain ⟨h₁, h₂, v, hv₁, hv₂, he₁, he₂⟩ := hw.changesSpec k bef aft h
    exact ⟨h₁, h₂, v, hv₁, hv₂, he₁, embedded_mono hext he₂⟩
  · rw [List.map_append, List.nodup_append]
    refine ⟨hw.outNodup, List.nodup_singleton _, ?_⟩
    intro x hx hx'
    obtain ⟨s, hs, hsid⟩ := List.mem_map.mp hx
    have hlt := (hw.outIds s hs).2
    have hx'' : x = st.ctr := List.mem_singleton.mp hx'
    omega
  · intro s hs
    rcases List.mem_append.mp hs with h | h
    · have hh := hw.outIds s h
      exact ⟨hh.1, Nat.lt_succ_of_lt hh.2⟩
    · rw [List.mem_singleton.mp h]
      exact ⟨hw.ctrGe, Nat.lt_succ_self _⟩

theorem winv_write (H : HashFn) {db : DB} (inv : Inv H db) {seg : Segment}
    (hseg : seg ∈ db.segments.take (db.segments.length - 1))
    {st : MergeState} (hw : MergeWInv H db st) {rec : Rec}
    (hrec : rec ∈ segRecs H seg) {loc : RecordLocation}
    (hl : idxLookup db.index rec.key = some loc)
    (hcond : loc.segId = seg.id ∧ loc.offset = rec.off) :
    MergeWInv H db ⟨st.outPrev, (st.cur.write H TypeSet rec.key rec.val).2,
      chSet st.changes rec.key
        (loc, ⟨st.cur.id, (st.cur.write H TypeSet rec.key rec.val).1⟩),
      st.ctr⟩ := by
  have hsegmem : seg ∈ db.segments := List.take_subset _ _ hseg
  have hclean := inv.clean seg hsegmem
  -- identify the scanned record with the entry's record
  obtain ⟨s₀, hs₀, hs₀id, rec', hrec', hkey', hoff', hwt'⟩ := entry_rec inv hl
  have hs₀seg : seg = s₀ := (seg_unique_by_id inv.idsNodup hs₀ hsegmem
    (by rw [hs₀id, hcond.1])).symm
  subst hs₀seg
  have hrr : rec = rec' := (segRecs_off_unique H hclean hrec' hrec
    (by rw [hoff', hcond.2])).symm
  subst hrr
  obtain ⟨pre, post, hdata, hpre, hwf⟩ := rec_embedding H hclean hrec
  have hembbef : EmbeddedAt H db.segments loc rec.key rec.val := by
    refine ⟨seg, hsegmem, hcond.1.symm, pre, post, ?_, by rw [hpre, hcond.2]⟩
    rw [hdata, hwt', hkey']
  have hext : ∀ s ∈ st.outPrev ++ [st.cur],
      ∃ s' ∈ st.outPrev ++ [(st.cur.write H TypeSet rec.key rec.val).2],
        s'.id = s.id ∧ ∃ ext, s'.data = s.data ++ ext := by
    intro s hs
    rcases List.mem_append.mp hs with h | h
    · exact ⟨s, List.mem_append_left _ h, rfl, [], by simp⟩
    · rw [List.mem_singleton.mp h]
      exact ⟨(st.cur.write H TypeSet rec.key rec.val).2,
        List.mem_append_right _ (by simp), rfl,
        encodeRecord H TypeSet rec.key rec.val, rfl⟩
  have hembaft : EmbeddedAt H
      (st.outPrev ++ [(st.cur.write H TypeSet rec.key rec.val).2])
      ⟨st.cur.id, (st.cur.write H TypeSet rec.key rec.val).1⟩ rec.key rec.val := by
    refine ⟨(st.cur.write H TypeSet rec.key rec.val).2,
      List.mem_append_right _ (by simp), rfl, st.cur.data, [], ?_, ?_⟩
    · rw [Segment.write]
      simp
    · rw [Segment.write]
      exact hw.curSize.symm
  refine ⟨?_, chSet_keys_nodup hw.changesNodup _ _, ?_, ?_, ?_, hw.ctrGe⟩
  · intro k bef aft h
    by_cases hk : k = rec.key
    · subst hk
      rw [chLookup_set_self] at h
      cases h
      refine ⟨hl, ?_, rec.val, hkey' ▸ hwf.1, hwf.2.1, hembbef, hembaft⟩
      rw [hcond.1]
      exact List.mem_map_of_mem (·.id) hseg
    · rw [chLookup_set_ne _ _ _ _ hk] at h
      obtain ⟨h₁, h₂, v, hv₁, hv₂, he₁, he₂⟩ := hw.changesSpec k bef aft h
      exact ⟨h₁, h₂, v, hv₁, hv₂, he₁, embedded_mono hext he₂⟩
  · have : (st.outPrev ++ [(st.cur.write H TypeSet rec.key rec.val).2]).map (·.id) =
        (st.outPrev ++ [st.cur]).map (·.id) := by
      simp [Segment.write]
    rw [this]
    exact hw.outNodup
  · intro s hs
    rcases List.mem_append.mp hs with h | h
    · exact hw.outIds s (List.mem_append_left _ h)
    · rw [List.mem_singleton.mp h, Segment.write]
      exact hw.outIds st.cur (List.mem_append_right _ (by simp))
  · rw [Segment.write]
    simp [hw.curSize, encodeRecord_length]

theorem stepRec_winv (H : HashFn) {db : DB} (inv : Inv H db) {seg : Segment}
    (hseg : seg ∈ db.segments.take (db.segments.length - 1))
    {st : MergeState} (hw : MergeWInv H db st) {rec : Rec}
    (hrec : rec ∈ segRecs H seg) :
    MergeWInv H db (stepRec H db.rolloverThreshold db.index seg.id st rec) := by
  cases hl : idxLookup db.index rec.key with
  | none =>
    simp only [stepRec, hl]
    exact hw
  | some loc =>
    by_cases hcond : loc.segId = seg.id ∧ loc.offset = rec.off
    · simp only [stepRec, hl, if_pos hcond]
      by_cases hroll : st.cur.size ≥ db.rolloverThreshold
      · rw [if_pos hroll]
        exact winv_write H inv hseg (winv_rollover H hw) hrec hl hcond
      · rw [if_neg hroll]
        exact winv_write H inv hseg hw hrec hl hcond
    · simp only [stepRec, hl, if_neg hcond]
      exact hw

/-! ### Folding the scan invariant over the inputs -/

theorem foldl_pred_inv {α : Type _} {β : Type _} (P : β → Prop) {f : β → α → β} :
    ∀ (l : List α), (∀ b a, a ∈ l → P b → P (f b a)) → ∀ (b : β), P b → P (l.foldl f b)
  | [], _, _, hb => hb
  | a :: t, hstep, b, hb =>
    foldl_pred_inv P t
      (fun b' a' ha' hb' => hstep b' a' (List.mem_cons_of_mem _ ha') hb')
      (f b a) (hstep b a (List.mem_cons_self a t) hb)

/-- The scan's fold state at the start: no finished outputs, the first
output segment freshly created with id `db.idCtr`, an empty changes map,
and the id counter advanced past the claimed id. -/
theorem winv_init (H : HashFn) (db : DB) :
    MergeWInv H db ⟨[], ⟨db.idCtr, [], 0⟩, [], db.idCtr + 1⟩ := by
  refine ⟨?_, by simp, by simp, ?_, rfl, Nat.le_succ _⟩
  · intro k bef aft h
    simp [chLookup] at h
  · intro s hs
    rw [List.nil_append, List.mem_singleton] at hs
    subst hs
    exact ⟨Nat.le_refl _, Nat.lt_succ_self _⟩

theorem scanSeg_winv (H : HashFn) {db : DB} (inv : Inv H db) {seg : Segment}
    (hseg : seg ∈ db.segments.take (db.segments.length - 1))
    {st : MergeState} (hw : MergeWInv H db st) :
    MergeWInv H db (scanSegStep H db.rolloverThreshold db.index st seg) := by
  rw [scanSegStep]
  exact foldl_pred_inv (MergeWInv H db) _
    (fun b a ha hb => stepRec_winv H inv hseg hb ha) _ hw

/-- The fold the scan phase performs over the input segments; `mergeScan`
returns exactly this state's fields. -/
def scanState (H : HashFn) (db : DB) : MergeState :=
  (db.segments.take (db.segments.length - 1)).foldl
    (scanSegStep H db.rolloverThreshold db.index)
    ⟨[], ⟨db.idCtr, [], 0⟩, [], db.idCtr + 1⟩

theorem scanState_winv (H : HashFn) {db : DB} (inv : Inv H db) :
    MergeWInv H db (scanState H db) := by
  rw [scanState]
  exact foldl_pred_inv (MergeWInv H db) _
    (fun b a ha hb => scanSeg_winv H inv ha hb) _ (winv_init H db)

/-! ### Coverage: every entry into an input segment is recorded -/

/-- A key once recorded in the changes map stays recorded through every
further scan step (a later hit overwrites its locations, never removes
the key). -/
theorem stepRec_presence (H : HashFn) (thr : Nat) (idx : Index) (sid : Nat)
    (st : MergeState) (rec : Rec) {k : Bytes}
    (h : ∃ p, chLookup st.changes k = some p) :
    ∃ p, chLookup (stepRec H thr idx sid st rec).changes k = some p := by
  obtain ⟨p, hp⟩ := h
  cases hl : idxLookup idx rec.key with
  | none =>
    refine ⟨p, ?_⟩
    simp only [stepRec, hl]
    exact hp
  | some loc =>
    by_cases hcond : loc.segId = sid ∧ loc.offset = rec.off
    · by_cases hk : rec.key = k
      · subst hk
        simp only [stepRec, hl, if_pos hcond]
        by_cases hroll : st.cur.size ≥ thr
        · rw [if_pos hroll]
          exact ⟨_, chLookup_set_self _ _ _⟩
        · rw [if_neg hroll]
          exact ⟨_, chLookup_set_self _ _ _⟩
      · refine ⟨p, ?_⟩
        simp only [stepRec, hl, if_pos hcond]
        by_cases hroll : st.cur.size ≥ thr
        · rw [if_pos hroll]
          exact (chLookup_set_ne _ _ _ _ (fun hh => hk hh.symm)).trans hp
        · rw [if_neg hroll]
          exact (chLookup_set_ne _ _ _ _ (fun hh => hk hh.symm)).trans hp
    · refine ⟨p, ?_⟩
      simp only [stepRec, hl, if_neg hcond]
      exact hp

/-- Scanning an input record whose directory entry points exactly at it
records the key in the changes map. -/
theorem stepRec_hit (H : HashFn) (thr : Nat) (idx : Index) (sid : Nat)
    (st : MergeState) (rec : Rec) {loc : RecordLocation}
    (hl : idxLookup idx rec.key = some loc) (h1 : loc.segId = sid)
    (h2 : loc.offset = rec.off) :
    ∃ p, chLookup (stepRec H thr idx sid st rec).changes rec.key = some p := by
  simp only [stepRec, hl, if_pos (And.intro h1 h2)]
  by_cases hroll : st.cur.size ≥ thr
  · rw [if_pos hroll]
    exact ⟨_, chLookup_set_self _ _ _⟩
  · rw [if_neg hroll]
    exact ⟨_, chLookup_set_self _ _ _⟩

theorem scanSeg_presence (H : HashFn) (thr : Nat) (idx : Index)
    (st : MergeState) (seg : Segment) {k : Bytes}
    (h : ∃ p, chLookup st.changes k = some p) :
    ∃ p, chLookup (scanSegStep H thr idx st seg).changes k = some p := by
  rw [scanSegStep]
  exact foldl_pred_inv (fun b => ∃ p, chLookup b.changes k = some p) _
    (fun b a _ hb => stepRec_presence H thr idx seg.id b a hb) _ h

/-- Coverage: every key whose live directory entry points into one of the
scanned input segments ends up in the scan's changes map. -/
theorem scanState_covers (H : HashFn) {db : DB} (inv : Inv H db) :
    ∀ k loc, idxLookup db.index k = some loc →
      loc.segId ∈ ((db.segments.take (db.segments.length - 1)).map (·.id)) →
      ∃ p, chLookup (scanState H db).changes k = some p := by
  intro k loc hl hin
  obtain ⟨s, hsmem, hsid, rec, hrecmem, hkey, hoff, hwt⟩ := entry_rec inv hl
  obtain ⟨s', hs'take, hs'id⟩ := List.mem_map.mp hin
  have hss : s' = s := seg_unique_by_id inv.idsNodup
    (List.take_subset _ _ hs'take) hsmem (hs'id.trans hsid.symm)
  rw [hss] at hs'take
  rw [scanState]
  obtain ⟨l₁, l₂, hsplit⟩ := List.append_of_mem hs'take
  rw [hsplit, List.foldl_append, List.foldl_cons]
  refine foldl_pred_inv (fun b => ∃ p, chLookup b.changes k = some p) _
    (fun b a _ hb => scanSeg_presence H db.rolloverThreshold db.index b a hb) _ ?_
  rw [scanSegStep]
  obtain ⟨r₁, r₂, hrsplit⟩ := List.append_of_mem hrecmem
  rw [hrsplit, List.foldl_append, List.foldl_cons]
  refine foldl_pred_inv (fun b => ∃ p, chLookup b.changes k = some p) _
    (fun b a _ hb => stepRec_presence H db.rolloverThreshold db.index s.id b a hb)
    _ ?_
  rw [← hkey]
  exact stepRec_hit H db.rolloverThreshold db.index s.id _ rec
    (by rw [hkey]; exact hl) hsid.symm hoff.symm

/-! ### Frame facts across the foreground operations -/

theorem drop_append_le {α : Type _} {l r : List α} {n : Nat} (h : n ≤ l.length) :
    (l ++ r).drop n = l.drop n ++ r := by
  rw [List.drop_append_eq_append_drop, Nat.sub_eq_zero_of_le h, List.drop_zero]

theorem checkRollover_segs (db : DB) (s : Segment) :
    ∃ tail, (db.checkRolloverAndMerge s).segments = db.segments ++ tail := by
  rw [DB.checkRolloverAndMerge]
  by_cases h : s.size < db.rolloverThreshold
  · rw [if_pos h]
    exact ⟨[], by rw [List.append_nil]⟩
  · rw [if_neg h]
    exact ⟨[⟨db.idCtr, [], 0⟩], rfl⟩

theorem checkRollover_idCtr_ge (db : DB) (s : Segment) :
    db.idCtr ≤ (db.checkRolloverAndMerge s).idCtr := by
  rw [DB.checkRolloverAndMerge]
  by_cases h : s.size < db.rolloverThreshold
  · rw [if_pos h]
  · rw [if_neg h]
    exact Nat.le_succ _

theorem checkRollover_mem (db : DB) (s : Segment) :
    ∀ x ∈ (db.checkRolloverAndMerge s).segments,
      x ∈ db.segments ∨ x.id = db.idCtr := by
  intro x hx
  rw [DB.checkRolloverAndMerge] at hx
  by_cases h : s.size < db.rolloverThreshold
  · rw [if_pos h] at hx
    exact Or.inl hx
  · rw [if_neg h] at hx
    rcases List.mem_append.mp hx with h' | h'
    · exact Or.inl h'
    · exact Or.inr (by rw [List.mem_singleton.mp h'])

theorem checkRollover_length_ge (db : DB) (s : Segment) :
    db.segments.length ≤ (db.checkRolloverAndMerge s).segments.length := by
  obtain ⟨tail, htail⟩ := checkRollover_segs db s
  rw [htail, List.length_append]
  exact Nat.le_add_right _ _

theorem applyOp_length_ge (H : HashFn) (db : DB) (op : Op) :
    db.segments.length ≤ (db.applyOp H op).segments.length := by
  cases op with
  | set k v =>
    rw [DB.applyOp, DB.setOp]
    cases hseg : db.segments.getLast? with
    | none => exact Nat.le_refl _
    | some seg =>
      simp only
      have hne : db.segments ≠ [] := by
        intro hnil
        rw [hnil] at hseg
        simp at hseg
      have h1 : 1 ≤ db.segments.length := List.length_pos.mpr hne
      refine Nat.le_trans ?_ (checkRollover_length_ge _ _)
      show db.segments.length ≤
        (db.segments.dropLast ++ [(seg.write H TypeSet k v).2]).length
      rw [List.length_append, List.length_dropLast, List.length_singleton]
      omega
  | del k =>
    rw [DB.applyOp]
    cases hdel : db.deleteOp H k with
    | error e => exact Nat.le_refl _
    | ok db' =>
      rw [DB.deleteOp] at hdel
      cases hlook : idxLookup db.index k with
      | none =>
        rw [hlook] at hdel
        cases hdel
      | some loc =>
        rw [hlook] at hdel
        cases hseg : db.segments.getLast? with
        | none =>
          rw [hseg] at hdel
          cases hdel
          exact Nat.le_refl _
        | some seg =>
          rw [hseg] at hdel
          simp only at hdel
          cases hdel
          have hne : db.segments ≠ [] := by
            intro hnil
            rw [hnil] at hseg
            simp at hseg
          have h1 : 1 ≤ db.segments.length := List.length_pos.mpr hne
          refine Nat.le_trans ?_ (checkRollover_length_ge _ _)
          show db.segments.length ≤
            (db.segments.dropLast ++ [(seg.write H TypeDelete k []).2]).length
          rw [List.length_append, List.length_dropLast, List.length_singleton]
          omega

theorem ids_drop_replace_last {l : List Segment} {a b : Segment}
    {tail : List Segment} (hid : b.id = a.id) {n : Nat} (hn : n ≤ l.length)
    {i : Nat} (h : i ∈ ((l ++ [a]).drop n).map (·.id)) :
    i ∈ (((l ++ [b]) ++ tail).drop n).map (·.id) := by
  rw [drop_append_le hn, List.map_append] at h
  rw [List.append_assoc, drop_append_le hn, List.map_append]
  rcases List.mem_append.mp h with h | h
  · exact List.mem_append_left _ h
  · rw [List.map_singleton, List.mem_singleton] at h
    refine List.mem_append_right _ ?_
    exact List.mem_map.mpr ⟨b, List.mem_append_left _ (by simp), hid.trans h.symm⟩

/-- Frame invariant carried across the foreground operations that run
between the scan and the install: every directory entry either points into
the part of the segment list that survives the install (the snapshot's
active segment and everything created after it), or is the untouched
snapshot entry pointing into one of the merge's input segments. -/
def EntryFrame (db : DB) (inputLen : Nat) (db' : DB) : Prop :=
  ∀ k loc, idxLookup db'.index k = some loc →
    loc.segId ∈ (db'.segments.drop inputLen).map (·.id) ∨
    (idxLookup db.index k = some loc ∧
      loc.segId ∈ (db.segments.take inputLen).map (·.id))

theorem entryFrame_base (H : HashFn) {db : DB} (inv : Inv H db) (c : Nat) :
    EntryFrame db (db.segments.length - 1) { db with idCtr := c } := by
  intro k loc h
  obtain ⟨s, hs, hid, rec, hrec, hrest⟩ := entry_rec inv h
  rw [← List.take_append_drop (db.segments.length - 1) db.segments] at hs
  rcases List.mem_append.mp hs with hcase | hcase
  · exact Or.inr ⟨h, by rw [← hid]; exact List.mem_map_of_mem (·.id) hcase⟩
  · exact Or.inl (by rw [← hid]; exact List.mem_map_of_mem (·.id) hcase)

theorem entryFrame_step (H : HashFn) {db : DB} {n : Nat} {db' : DB} (op : Op)
    (hlen : n < db'.segments.length) (hf : EntryFrame db n db') :
    EntryFrame db n (db'.applyOp H op) := by
  cases op with
  | set k' v' =>
    cases hseg : db'.segments.getLast? with
    | none =>
      have hred : db'.applyOp H (.set k' v') = db' := by
        rw [DB.applyOp, DB.setOp, hseg]
      rw [hred]
      exact hf
    | some seg =>
      have hlen' : n ≤ db'.segments.dropLast.length := by
        rw [List.length_dropLast]
        omega
      have hred : db'.applyOp H (.set k' v') =
          DB.checkRolloverAndMerge
            { db' with
              segments := db'.segments.dropLast ++ [(seg.write H TypeSet k' v').2]
              index := idxSet db'.index k' ⟨seg.id, (seg.write H TypeSet k' v').1⟩ }
            (seg.write H TypeSet k' v').2 := by
        rw [DB.applyOp, DB.setOp, hseg]
      obtain ⟨tail, htail⟩ := checkRollover_segs
        { db' with
          segments := db'.segments.dropLast ++ [(seg.write H TypeSet k' v').2]
          index := idxSet db'.index k' ⟨seg.id, (seg.write H TypeSet k' v').1⟩ }
        (seg.write H TypeSet k' v').2
      have hsegs : (db'.applyOp H (.set k' v')).segments =
          (db'.segments.dropLast ++ [(seg.write H TypeSet k' v').2]) ++ tail := by
        rw [hred]
        exact htail
      have hidx : (db'.applyOp H (.set k' v')).index =
          idxSet db'.index k' ⟨seg.id, (seg.write H TypeSet k' v').1⟩ := by
        rw [hred, checkRollover_index]
      intro k loc h
      rw [hidx] at h
      by_cases hk : k' = k
      · subst hk
        rw [idxLookup_set_self] at h
        cases h
        refine Or.inl ?_
        rw [hsegs, List.append_assoc, drop_append_le hlen', List.map_append]
        refine List.mem_append_right _ ?_
        exact List.mem_map.mpr ⟨(seg.write H TypeSet k' v').2,
          List.mem_append_left _ (by simp), rfl⟩
      · rw [idxLookup_set_ne _ _ _ _ (fun hh => hk hh.symm)] at h
        rcases hf k loc h with hl | hr
        · refine Or.inl ?_
          rw [hsegs]
          rw [eq_dropLast_append hseg] at hl
          exact ids_drop_replace_last
            (show (seg.write H TypeSet k' v').2.id = seg.id from rfl) hlen' hl
        · exact Or.inr hr
  | del k' =>
    cases hdel : db'.deleteOp H k' with
    | error e =>
      have hred : db'.applyOp H (.del k') = db' := by
        rw [DB.applyOp, hdel]
      rw [hred]
      exact hf
    | ok dbd =>
      have hred : db'.applyOp H (.del k') = dbd := by
        rw [DB.applyOp, hdel]
      rw [DB.deleteOp] at hdel
      cases hlook : idxLookup db'.index k' with
      | none =>
        rw [hlook] at hdel
        cases hdel
      | some loc0 =>
        rw [hlook] at hdel
        cases hseg : db'.segments.getLast? with
        | none =>
          rw [hseg] at hdel
          cases hdel
          rw [hred]
          exact hf
        | some seg =>
          rw [hseg] at hdel
          simp only at hdel
          cases hdel
          have hlen' : n ≤ db'.segments.dropLast.length := by
            rw [List.length_dropLast]
            omega
          obtain ⟨tail, htail⟩ := checkRollover_segs
            { db' with
              segments := db'.segments.dropLast ++
                [(seg.write H TypeDelete k' []).2]
              index := idxErase db'.index k' }
            (seg.write H TypeDelete k' []).2
          have hsegs : (db'.applyOp H (.del k')).segments =
              (db'.segments.dropLast ++ [(seg.write H TypeDelete k' []).2]) ++
                tail := by
            rw [hred]
            exact htail
          have hidx : (db'.applyOp H (.del k')).index =
              idxErase db'.index k' := by
            rw [hred, checkRollover_index]
          intro k loc h
          rw [hidx] at h
          by_cases hk : k' = k
          · subst hk
            rw [idxLookup_erase_self] at h
            cases h
          · rw [idxLookup_erase_ne _ _ _ (fun hh => hk hh.symm)] at h
            rcases hf k loc h with hl | hr
            · refine Or.inl ?_
              rw [hsegs]
              rw [eq_dropLast_append hseg] at hl
              exact ids_drop_replace_last
                (show (seg.write H TypeDelete k' []).2.id = seg.id from rfl)
                hlen' hl
            · exact Or.inr hr

theorem entryFrame_fold (H : HashFn) {db : DB} (inv : Inv H db) (c : Nat)
    (ops : List Op) :
    db.segments.length - 1 <
      (DB.applyOps H { db with idCtr := c } ops).segments.length ∧
    EntryFrame db (db.segments.length - 1)
      (DB.applyOps H { db with idCtr := c } ops) := by
  rw [DB.applyOps]
  refine foldl_pred_inv
    (fun d => db.segments.length - 1 < d.segments.length ∧
      EntryFrame db (db.segments.length - 1) d) _
    (fun d op _ hd => ⟨Nat.lt_of_lt_of_le hd.1 (applyOp_length_ge H d op),
      entryFrame_step H op hd.1 hd.2⟩) _ ⟨?_, entryFrame_base H inv c⟩
  have h1 : 1 ≤ db.segments.length := List.length_pos.mpr inv.ne
  show db.segments.length - 1 < db.segments.length
  omega

theorem applyOp_idCtr_ge (H : HashFn) (db : DB) (op : Op) :
    db.idCtr ≤ (db.applyOp H op).idCtr := by
  cases op with
  | set k v =>
    rw [DB.applyOp, DB.setOp]
    cases hseg : db.segments.getLast? with
    | none => exact Nat.le_refl _
    | some seg =>
      simp only
      exact checkRollover_idCtr_ge
        { db with
          segments := db.segments.dropLast ++ [(seg.write H TypeSet k v).2]
          index := idxSet db.index k ⟨seg.id, (seg.write H TypeSet k v).1⟩ }
        (seg.write H TypeSet k v).2
  | del k =>
    rw [DB.applyOp]
    cases hdel : db.deleteOp H k with
    | error e => exact Nat.le_refl _
    | ok db' =>
      rw [DB.deleteOp] at hdel
      cases hlook : idxLookup db.index k with
      | none =>
        rw [hlook] at hdel
        cases hdel
      | some loc =>
        rw [hlook] at hdel
        cases hseg : db.segments.getLast? with
        | none =>
          rw [hseg] at hdel
          cases hdel
          exact Nat.le_refl _
        | some seg =>
          rw [hseg] at hdel
          simp only at hdel
          cases hdel
          exact checkRollover_idCtr_ge
            { db with
              segments := db.segments.dropLast ++ [(seg.write H TypeDelete k []).2]
              index := idxErase db.index k }
            (seg.write H TypeDelete k []).2

/-- An operation's segments carry ids of the state it ran on, or fresh ids
at or above that state's counter. -/
theorem applyOp_ids_or_ge (H : HashFn) (db : DB) (op : Op) :
    ∀ x ∈ (db.applyOp H op).segments,
      x.id ∈ db.segments.map (·.id) ∨ db.idCtr ≤ x.id := by
  intro x hx
  cases op with
  | set k v =>
    rw [DB.applyOp, DB.setOp] at hx
    cases hseg : db.segments.getLast? with
    | none =>
      rw [hseg] at hx
      exact Or.inl (List.mem_map_of_mem _ hx)
    | some seg =>
      rw [hseg] at hx
      simp only at hx
      rcases checkRollover_mem _ _ x hx with h | h
      · rcases List.mem_append.mp h with h' | h'
        · refine Or.inl (List.mem_map_of_mem _ ?_)
          rw [eq_dropLast_append hseg]
          exact List.mem_append_left _ h'
        · rw [List.mem_singleton.mp h']
          have hsm : seg ∈ db.segments := by
            rw [eq_dropLast_append hseg]
            simp
          exact Or.inl (List.mem_map.mpr ⟨seg, hsm, rfl⟩)
      · exact Or.inr (Nat.le_of_eq h.symm)
  | del k =>
    rw [DB.applyOp] at hx
    cases hdel : db.deleteOp H k with
    | error e =>
      rw [hdel] at hx
      exact Or.inl (List.mem_map_of_mem _ hx)
    | ok db' =>
      rw [hdel] at hx
      rw [DB.deleteOp] at hdel
      cases hlook : idxLookup db.index k with
      | none =>
        rw [hlook] at hdel
        cases hdel
      | some loc =>
        rw [hlook] at hdel
        cases hseg : db.segments.getLast? with
        | none =>
          rw [hseg] at hdel
          cases hdel
          exact Or.inl (List.mem_map_of_mem _ hx)
        | some seg =>
          rw [hseg] at hdel
          simp only at hdel
          cases hdel
          rcases checkRollover_mem _ _ x hx with h | h
          · rcases List.mem_append.mp h with h' | h'
            · refine Or.inl (List.mem_map_of_mem _ ?_)
              rw [eq_dropLast_append hseg]
              exact List.mem_append_left _ h'
            · rw [List.mem_singleton.mp h']
              have hsm : seg ∈ db.segments := by
                rw [eq_dropLast_append hseg]
                simp
              exact Or.inl (List.mem_map.mpr ⟨seg, hsm, rfl⟩)
          · exact Or.inr (Nat.le_of_eq h.symm)

theorem applyOps_ids_or_ge (H : HashFn) (db : DB) (c : Nat) (ops : List Op) :
    c ≤ (DB.applyOps H { db with idCtr := c } ops).idCtr ∧
    ∀ x ∈ (DB.applyOps H { db with idCtr := c } ops).segments,
      x.id ∈ db.segments.map (·.id) ∨ c ≤ x.id := by
  rw [DB.applyOps]
  refine foldl_pred_inv
    (fun d => c ≤ d.idCtr ∧
      ∀ x ∈ d.segments, x.id ∈ db.segments.map (·.id) ∨ c ≤ x.id) _
    (fun d op _ hd => ⟨Nat.le_trans hd.1 (applyOp_idCtr_ge H d op), ?_⟩)
    { db with idCtr := c }
    ⟨Nat.le_refl c, fun x hx => Or.inl (List.mem_map_of_mem _ hx)⟩
  intro x hx
  rcases applyOp_ids_or_ge H d op x hx with h | h
  · obtain ⟨y, hy, hyid⟩ := List.mem_map.mp h
    rcases hd.2 y hy with h' | h'
    · exact Or.inl (hyid ▸ h')
    · exact Or.inr (hyid ▸ h')
  · exact Or.inr (Nat.le_trans hd.1 h)

theorem applyOps_seg_extend (H : HashFn) (db : DB) (ops : List Op) :
    ∀ s ∈ db.segments, ∃ s' ∈ (DB.applyOps H db ops).segments,
      s'.id = s.id ∧ ∃ ext, s'.data = s.data ++ ext := by
  induction ops generalizing db with
  | nil =>
    intro s hs
    exact ⟨s, hs, rfl, [], by rw [List.append_nil]⟩
  | cons op t ih =>
    intro s hs
    have hstep : DB.applyOps H db (op :: t) = DB.applyOps H (db.applyOp H op) t := by
      rw [DB.applyOps, DB.applyOps, List.foldl_cons]
    rw [hstep]
    obtain ⟨s₁, hs₁, hid₁, e₁, he₁⟩ := applyOp_seg_extend H db op s hs
    obtain ⟨s₂, hs₂, hid₂, e₂, he₂⟩ := ih (db.applyOp H op) s₁ hs₁
    exact ⟨s₂, hs₂, hid₂.trans hid₁, e₁ ++ e₂, by rw [he₂, he₁, List.append_assoc]⟩

/-! ### The install phase -/

/-- Reads of a key whose entry survives the install unchanged and points
into the surviving suffix of the segment list return the same result before
and after the install. -/
theorem get_install_eq (H : HashFn) (db₂ : DB) (outs : List Segment)
    (ch : Changes) (inputLen : Nat) (k : Bytes) (cur : RecordLocation)
    (hnd₂ : (db₂.segments.map (·.id)).Nodup)
    (hndF : ((outs ++ db₂.segments.drop inputLen).map (·.id)).Nodup)
    (hlook₂ : idxLookup db₂.index k = some cur)
    (hlookF : idxLookup (installMerge db₂ outs ch inputLen).index k = some cur)
    (hseg : cur.segId ∈ (db₂.segments.drop inputLen).map (·.id)) :
    DB.get H (installMerge db₂ outs ch inputLen) k = DB.get H db₂ k := by
  obtain ⟨s, hsdrop, hsid⟩ := List.mem_map.mp hseg
  have hsmem : s ∈ db₂.segments := List.drop_subset _ _ hsdrop
  have hfind₂ : db₂.findSeg cur.segId = some s := by
    rw [← hsid]
    exact findSeg_eq hnd₂ hsmem
  have hfindF : (installMerge db₂ outs ch inputLen).findSeg cur.segId = some s := by
    show (outs ++ db₂.segments.drop inputLen).find? (fun x => x.id = cur.segId) =
      some s
    rw [← hsid]
    exact find_seg_list hndF (List.mem_append_right _ hsdrop)
  have hcs : (installMerge db₂ outs ch inputLen).checksumEnabled =
      db₂.checksumEnabled := rfl
  simp only [DB.get, hlookF, hlook₂, hfindF, hfind₂, hcs]

/-- The install phase observed against the state it installs into: the
reconciliation rule at every key, and the invariance of `Get`. -/
theorem merge_install_get (H : HashFn) {db : DB} (inv : Inv H db)
    {interOps : List Op} (hops : ∀ op ∈ interOps, op.Wf)
    {st : MergeState} (hw : MergeWInv H db st)
    (hcov : ∀ k loc, idxLookup db.index k = some loc →
      loc.segId ∈ ((db.segments.take (db.segments.length - 1)).map (·.id)) →
      ∃ p, chLookup st.changes k = some p)
    (db₂ : DB)
    (hmid : db₂ = DB.applyOps H { db with idCtr := st.ctr } interOps) :
    (∀ k, idxLookup (installMerge db₂ (st.outPrev ++ [st.cur]) st.changes
        (db.segments.length - 1)).index k =
      match chLookup st.changes k with
      | none => idxLookup db₂.index k
      | some p =>
        match idxLookup db₂.index k with
        | none => none
        | some cur => if cur = p.1 then some p.2 else some cur) ∧
    (∀ k, DB.get H (installMerge db₂ (st.outPrev ++ [st.cur]) st.changes
        (db.segments.length - 1)) k = DB.get H db₂ k) := by
  have hinvMid : Inv H { db with idCtr := st.ctr } :=
    { ne := inv.ne, sizes := inv.sizes, clean := inv.clean,
      idsNodup := inv.idsNodup,
      idsLt := fun s hs => Nat.lt_of_lt_of_le (inv.idsLt s hs) hw.ctrGe,
      manifestSync := inv.manifestSync, replayEq := inv.replayEq }
  have hinv₂ : Inv H db₂ := by
    rw [hmid]
    exact inv_applyOps H hinvMid hops
  have hframe := entryFrame_fold H inv st.ctr interOps
  rw [← hmid] at hframe
  have hids := applyOps_ids_or_ge H db st.ctr interOps
  rw [← hmid] at hids
  have hlow : ∀ i ∈ db.segments.map (·.id), i < db.idCtr := by
    intro i hi
    obtain ⟨s, hs, rfl⟩ := List.mem_map.mp hi
    exact inv.idsLt s hs
  have hndF : (((st.outPrev ++ [st.cur]) ++
      db₂.segments.drop (db.segments.length - 1)).map (·.id)).Nodup := by
    rw [List.map_append, List.nodup_append]
    refine ⟨hw.outNodup, hinv₂.idsNodup.sublist ((List.drop_sublist _ _).map _), ?_⟩
    intro a ha ha'
    obtain ⟨x, hx, hxa⟩ := List.mem_map.mp ha
    obtain ⟨s, hs, hsa⟩ := List.mem_map.mp ha'
    have hout := hw.outIds x hx
    have hsmem : s ∈ db₂.segments := List.drop_subset _ _ hs
    rcases hids.2 s hsmem with h | h
    · have h1 := hlow s.id (by exact h)
      omega
    · omega
  have hidxF : ∀ k, idxLookup (installMerge db₂ (st.outPrev ++ [st.cur])
      st.changes (db.segments.length - 1)).index k =
      match chLookup st.changes k with
      | none => idxLookup db₂.index k
      | some p =>
        match idxLookup db₂.index k with
        | none => none
        | some cur => if cur = p.1 then some p.2 else some cur := by
    intro k
    exact reconcile_lookup st.changes hw.changesNodup db₂.index k
  refine ⟨hidxF, ?_⟩
  intro k
  cases hcur : idxLookup db₂.index k with
  | none =>
    have hF : idxLookup (installMerge db₂ (st.outPrev ++ [st.cur]) st.changes
        (db.segments.length - 1)).index k = none := by
      rw [hidxF k]
      cases hch : chLookup st.changes k with
      | none => simp only [hcur]
      | some p => simp only [hcur]
    simp only [DB.get, hF, hcur]
  | some cur =>
    cases hch : chLookup st.changes k with
    | some p =>
      have hch' : chLookup st.changes k = some (p.1, p.2) := by rw [hch]
      obtain ⟨hbef, hbefin, v, hk32, hv32, hembS, hembO⟩ :=
        hw.changesSpec k p.1 p.2 hch'
      by_cases hcb : cur = p.1
      · subst hcb
        have hF : idxLookup (installMerge db₂ (st.outPrev ++ [st.cur]) st.changes
            (db.segments.length - 1)).index k = some p.2 := by
          rw [hidxF k]
          simp only [hch, hcur]
          simp
        have hemb₂ : EmbeddedAt H db₂.segments p.1 k v := by
          rw [hmid]
          exact embedded_mono (applyOps_seg_extend H _ interOps) hembS
        have hembF : EmbeddedAt H (installMerge db₂ (st.outPrev ++ [st.cur])
            st.changes (db.segments.length - 1)).segments p.2 k v := by
          refine embedded_mono (fun s hs => ⟨s, ?_, rfl, [], by
            rw [List.append_nil]⟩) hembO
          show s ∈ (st.outPrev ++ [st.cur]) ++
            db₂.segments.drop (db.segments.length - 1)
          exact List.mem_append_left _ hs
        have hg₂ : DB.get H db₂ k = .ok v :=
          get_of_embedded hinv₂.idsNodup hcur hemb₂ hk32 hv32
        have hgF : DB.get H (installMerge db₂ (st.outPrev ++ [st.cur]) st.changes
            (db.segments.length - 1)) k = .ok v :=
          get_of_embedded hndF hF hembF hk32 hv32
        rw [hg₂, hgF]
      · have hF : idxLookup (installMerge db₂ (st.outPrev ++ [st.cur]) st.changes
            (db.segments.length - 1)).index k = some cur := by
          rw [hidxF k]
          simp only [hch, hcur]
          rw [if_neg hcb]
        have hdroploc : cur.segId ∈
            (db₂.segments.drop (db.segments.length - 1)).map (·.id) := by
          rcases hframe.2 k cur hcur with h | h
          · exact h
          · exact absurd (Option.some.inj (h.1.symm.trans hbef)) hcb
        exact get_install_eq H db₂ (st.outPrev ++ [st.cur]) st.changes
          (db.segments.length - 1) k cur hinv₂.idsNodup hndF hcur hF hdroploc
    | none =>
      have hF : idxLookup (installMerge db₂ (st.outPrev ++ [st.cur]) st.changes
          (db.segments.length - 1)).index k = some cur := by
        rw [hidxF k]
        simp only [hch]
        exact hcur
      have hdroploc : cur.segId ∈
          (db₂.segments.drop (db.segments.length - 1)).map (·.id) := by
        rcases hframe.2 k cur hcur with h | h
        · exact h
        · obtain ⟨p, hp⟩ := hcov k cur h.1 h.2
          rw [hch] at hp
          cases hp
      exact get_install_eq H db₂ (st.outPrev ++ [st.cur]) st.changes
        (db.segments.length - 1) k cur hinv₂.idsNodup hndF hcur hF hdroploc

/-! ## C2: merge last-writer-wins reconciliation -/

/-- **C2.** Merge last-writer-wins reconciliation: at install time every key
of the merge's changes map is replaced with its after-location exactly when
the current directory entry still equals the recorded before-location, and
is skipped when the key was deleted during the merge (no entry) or
overwritten (entry differs, the newer value winning); keys outside the map
are untouched.  Consequently the merge changes no logical value: `Get`
returns the same result for every key after the install as it did against
the pre-install state, whatever foreground operations ran between the scan
and the install. -/
theorem merge_last_writer_wins (H : HashFn) (db : DB) (inv : Inv H db)
    (interOps : List Op) (hops : ∀ op ∈ interOps, op.Wf) (db₂ : DB)
    (hmid : db₂ =
      DB.applyOps H { db with idCtr := (mergeScan H db).2.2 } interOps) :
    (∀ k, idxLookup (mergeRun H db interOps).index k =
      match chLookup (mergeScan H db).2.1 k with
      | none => idxLookup db₂.index k
      | some p =>
        match idxLookup db₂.index k with
        | none => none
        | some cur => if cur = p.1 then some p.2 else some cur) ∧
    (∀ k, DB.get H (mergeRun H db interOps) k = DB.get H db₂ k) := by
  have hctr : (mergeScan H db).2.2 = (scanState H db).ctr := rfl
  have hch : (mergeScan H db).2.1 = (scanState H db).changes := rfl
  have hrun : mergeRun H db interOps = installMerge
      (DB.applyOps H { db with idCtr := (scanState H db).ctr } interOps)
      ((scanState H db).outPrev ++ [(scanState H db).cur])
      (scanState H db).changes (db.segments.length - 1) := rfl
  rw [hctr] at hmid
  rw [hrun, hch, ← hmid]
  exact merge_install_get H inv hops (scanState_winv H inv)
    (scanState_covers H inv) db₂ hmid

/-- Concrete instance of C2 on the one-segment empty store with no
foreground operations between scan and install. -/
theorem merge_last_writer_wins_witness :
    (∀ k, idxLookup (mergeRun hashZero db0 []).index k =
      match chLookup (mergeScan hashZero db0).2.1 k with
      | none => idxLookup (DB.applyOps hashZero
          { db0 with idCtr := (mergeScan hashZero db0).2.2 } []).index k
      | some p =>
        match idxLookup (DB.applyOps hashZero
            { db0 with idCtr := (mergeScan hashZero db0).2.2 } []).index k with
        | none => none
        | some cur => if cur = p.1 then some p.2 else some cur) ∧
    (∀ k, DB.get hashZero (mergeRun hashZero db0 []) k =
      DB.get hashZero (DB.applyOps hashZero
        { db0 with idCtr := (mergeScan hashZero db0).2.2 } []) k) :=
  merge_last_writer_wins hashZero db0 inv_db0 []
    (fun op hop => absurd hop (List.not_mem_nil op)) _ rfl

/-! ## C6: the merge error channel (`tryMerge`, `MergeErrors`)

Both channels of the merge machinery are created with capacity 1
(`make(chan struct{}, 1)` and `make(chan error, 1)`, `db.go`).  Their
states are modelled explicitly; the goroutine of `tryMerge` is run to
completion — or to a permanently blocked send — against a world with no
concurrent receiver on `mergeErr`, which is the claim's scenario of a
caller that never drains `MergeErrors`. -/

/-- The channels of the merge machinery: the single buffered slot of
`db.mergeErr` (`none` = empty) and whether `db.mergeSem`'s slot is
occupied. -/
structure ChanState (ε : Type) where
  mergeErr : Option ε
  mergeSem : Bool
deriving DecidableEq, Repr

/-- A plain send on a one-slot buffered channel when no receiver is or
ever will be ready: it completes at once when the buffer is empty
(returning the new slot) and blocks forever otherwise (`none`). -/
def chanSend1 {ε : Type} (slot : Option ε) (e : ε) : Option (Option ε) :=
  match slot with
  | none => some (some e)
  | some _ => none

/-- `DB.tryMerge` (`merge.go`) as its caller observes it: the `select`
with a `default` branch either claims the free semaphore and spawns the
merge goroutine (`true`) or returns at once (`false`); the caller is never
blocked and the error channel is untouched. -/
def tryMerge {ε : Type} (st : ChanState ε) : Bool × ChanState ε :=
  if st.mergeSem then (false, st)
  else (true, { st with mergeSem := true })

/-- The merge goroutine spawned by `DB.tryMerge` (`merge.go`), given the
result of `db.merge()` (`none` = success): on failure it performs the
plain send `db.mergeErr <- err` before the release `<-db.mergeSem`.
`some st'` means the goroutine ran to completion leaving the channels in
`st'`; `none` means it blocked forever on the send, with the semaphore
still held. -/
def mergeGoroutine {ε : Type} (st : ChanState ε) (res : Option ε) :
    Option (ChanState ε) :=
  match res with
  | none => some { st with mergeSem := false }
  | some e =>
    match chanSend1 st.mergeErr e with
    | some slot => some ⟨slot, false⟩
    | none => none

/-- **C6** (counterexample to the claimed behaviour).  With a previous
undrained error occupying the slot, a second failing merge does not drop
its error: the goroutine blocks on `db.mergeErr <- err` before releasing
the semaphore and never completes, and a later trigger finds the
semaphore taken and starts nothing — refuting the claimed non-blocking
outlet that never wedges the engine. -/
theorem merge_error_drop_refuted :
    mergeGoroutine (⟨some 0, true⟩ : ChanState Nat) (some 1) = none ∧
    tryMerge (⟨some 0, true⟩ : ChanState Nat) = (false, ⟨some 0, true⟩) :=
  ⟨rfl, rfl⟩

/-- **C6** (corrected).  The merge trigger itself never blocks its caller:
the non-blocking `select` either claims the free semaphore or returns at
once, and a successful merge's goroutine always completes and releases the
semaphore.  But `mergeErr` is a single BUFFERED slot written with a PLAIN
send: a failing merge with the slot empty parks its error there, completes
and releases; a failing merge with a previous error still undrained blocks
its goroutine forever on the send, the semaphore is never released, and no
later merge can start — the error is not dropped, and an undrained channel
wedges merging. -/
theorem merge_error_channel (st : ChanState Nat) (e e₀ : Nat) :
    (st.mergeSem = false → tryMerge st = (true, { st with mergeSem := true })) ∧
    (st.mergeSem = true → tryMerge st = (false, st)) ∧
    mergeGoroutine st none = some { st with mergeSem := false } ∧
    (st.mergeErr = none → mergeGoroutine st (some e) = some ⟨some e, false⟩) ∧
    (st.mergeErr = some e₀ → mergeGoroutine st (some e) = none) := by
  refine ⟨?_, ?_, rfl, ?_, ?_⟩
  · intro h
    simp [tryMerge, h]
  · intro h
    simp [tryMerge, h]
  · intro h
    simp [mergeGoroutine, chanSend1, h]
  · intro h
    simp [mergeGoroutine, chanSend1, h]

/-- Concrete run of C6's corrected behaviour: a trigger on the idle engine
claims the semaphore; a first failing merge parks its error and releases;
a second failing merge with the slot undrained blocks forever. -/
theorem merge_error_channel_witness :
    tryMerge (⟨none, false⟩ : ChanState Nat) = (true, ⟨none, true⟩) ∧
    mergeGoroutine (⟨none, true⟩ : ChanState Nat) (some 7) =
      some ⟨some 7, false⟩ ∧
    mergeGoroutine (⟨some 7, true⟩ : ChanState Nat) (some 8) = none :=
  ⟨(merge_error_channel ⟨none, false⟩ 7 0).1 rfl,
   (merge_error_channel ⟨none, true⟩ 7 0).2.2.2.1 rfl,
   (merge_error_channel ⟨some 7, true⟩ 8 7).2.2.2.2 rfl⟩

/-! ## C7: merge rollback atomicity (`DB.merge` failure paths, `abortMerge`)

The fallible pre-install steps of `DB.merge` are modelled with the data
directory threaded through and a failure-injection environment choosing
which step fails: output segment creation (`newSegment`), the input
scanner (`rs.err`), the output write (`mergeSeg.write`) and the output
sync (`seg.file.Sync()`).  A failure carries the merge-local state the
`defer`red `abortMerge` observes (`out` and the directory).  The live `DB`
value is mutated only by the install section, which a failing run never
reaches; the foreground state on the failure path is therefore the input
state. -/

/-- `newSegment`'s effect on the directory: the fresh empty segment file
appears (`createFileDurable`). -/
def diskCreate (d : Disk) (id : Nat) : Disk :=
  ⟨d.manifestIds, d.files ++ [(id, [])]⟩

/-- An append to segment file `id`. -/
def diskAppend (d : Disk) (id : Nat) (bs : Bytes) : Disk :=
  ⟨d.manifestIds, d.files.map (fun p => if p.1 = id then (p.1, p.2 ++ bs) else p)⟩

/-- `os.Remove(getSegmentPath(db.dir, id))`. -/
def diskRemove (d : Disk) (id : Nat) : Disk :=
  ⟨d.manifestIds, d.files.filter (fun p => p.1 ≠ id)⟩

/-- `DB.abortMerge` (`merge.go`): close and unlink every output segment
created so far, in creation order. -/
def abortMerge (outIds : List Nat) (d : Disk) : Disk :=
  outIds.foldl diskRemove d

/-- Failure injection for the fallible pre-install steps. -/
structure MergeEnv where
  createFails : Nat → Bool
  writeFails : Nat → Nat → Bool
  syncFails : Nat → Bool
  scanStops : Nat → Option Nat

/-- The merge-local state of the fallible pre-install phase: the output
segments created so far (`out.segments`, ids in creation order), the
current output segment's id and size (`mergeSeg`), the id counter
(`claimNextSegmentId`), and the data directory. -/
structure MergeFState where
  outIds : List Nat
  curId : Nat
  curSize : Nat
  ctr : Nat
  disk : Disk
deriving DecidableEq, Repr

/-- Which pre-install step failed. -/
inductive MergeFErr where
  | createSeg
  | writeRec
  | scanSeg
  | syncSeg
deriving DecidableEq, Repr

/-- `DB.rolloverMergeSegment` (`merge.go`): claim the next id (the counter
advances even when the creation then fails), create the segment file, and
append the segment to `out.segments`. -/
def rolloverMergeSegment (env : MergeEnv) (st : MergeFState) :
    Except (MergeFErr × MergeFState) MergeFState :=
  if env.createFails st.ctr then
    .error (.createSeg, { st with ctr := st.ctr + 1 })
  else
    .ok { outIds := st.outIds ++ [st.ctr], curId := st.ctr, curSize := 0,
          ctr := st.ctr + 1, disk := diskCreate st.disk st.ctr }

/-- One record of the fallible scan loop of `DB.merge`: skip keys without
a live entry or not at their latest location; otherwise roll the output
over when it reached the threshold (which may fail), then append the
copied `Set` record to the output file (which may fail). -/
def stepRecF (H : HashFn) (env : MergeEnv) (idx : Index) (thr : Nat)
    (segId : Nat) (st : MergeFState) (rec : Rec) :
    Except (MergeFErr × MergeFState) MergeFState :=
  match idxLookup idx rec.key with
  | none => .ok st
  | some loc =>
    if loc.segId = segId ∧ loc.offset = rec.off then
      match (if st.curSize ≥ thr then rolloverMergeSegment env st else .ok st) with
      | .error est => .error est
      | .ok st' =>
        if env.writeFails st'.curId st'.curSize then .error (.writeRec, st')
        else .ok { st' with
          curSize := st'.curSize + (hdrLen + rec.key.length + rec.val.length)
          disk := diskAppend st'.disk st'.curId
            (encodeRecord H TypeSet rec.key rec.val) }
    else .ok st

/-- Fold a fallible step over a list, short-circuiting on the first
error. -/
def foldlE {ε α β : Type _} (f : β → α → Except ε β) : β → List α → Except ε β
  | b, [] => .ok b
  | b, a :: t =>
    match f b a with
    | .error e => .error e
    | .ok b' => foldlE f b' t

/-- One input segment of the fallible scan loop: the non-verifying scanner
yields the segment's records (stopping early where the injected read error
hits), the loop body runs on each, and `rs.err` is checked after the
loop. -/
def scanSegF (H : HashFn) (env : MergeEnv) (idx : Index) (thr : Nat)
    (st : MergeFState) (seg : Segment) :
    Except (MergeFErr × MergeFState) MergeFState :=
  match foldlE (stepRecF H env idx thr seg.id) st
      (match env.scanStops seg.id with
       | none => segRecs H seg
       | some n => (segRecs H seg).take n) with
  | .error est => .error est
  | .ok st' =>
    match env.scanStops seg.id with
    | none => .ok st'
    | some _ => .error (.scanSeg, st')

/-- The output `Sync` loop after the scan. -/
def syncOutsF (env : MergeEnv) (st : MergeFState) :
    Except (MergeFErr × MergeFState) MergeFState :=
  if st.outIds.any env.syncFails then .error (.syncSeg, st) else .ok st

/-- The pre-install phase of `DB.merge` under failure injection: snapshot
the inputs (all but the active segment), create the first output segment,
scan the inputs in order, and sync the outputs.  What follows in the
source — `onMergeApply` and the install under the exclusive lock — is the
merge of C2; a failing run never reaches it. -/
def mergeF (H : HashFn) (env : MergeEnv) (db : DB) (d : Disk) :
    Except (MergeFErr × MergeFState) MergeFState :=
  match rolloverMergeSegment env ⟨[], 0, 0, db.idCtr, d⟩ with
  | .error est => .error est
  | .ok st1 =>
    match foldlE (scanSegF H env db.index db.rolloverThreshold) st1
        (db.segments.take (db.segments.length - 1)) with
    | .error est => .error est
    | .ok st2 => syncOutsF env st2

/-- The rollback invariant: the directory is the initial directory plus
exactly one file per created output id, the created ids are fresh (at
least the initial counter, below the current one) and distinct. -/
structure RollbackInv (c₀ : Nat) (d₀ : Disk) (st : MergeFState) : Prop where
  files : ∃ ext : List (Nat × Bytes),
    st.disk.files = d₀.files ++ ext ∧ ext.map (·.1) = st.outIds
  manifest : st.disk.manifestIds = d₀.manifestIds
  outGe : ∀ i ∈ st.outIds, c₀ ≤ i ∧ i < st.ctr
  outNodup : st.outIds.Nodup
  ctrGe : c₀ ≤ st.ctr

/-- The invariant during the scan, after the first output was created:
the current output is one of the created ones. -/
def ScanInv (c₀ : Nat) (d₀ : Disk) (st : MergeFState) : Prop :=
  RollbackInv c₀ d₀ st ∧ st.curId ∈ st.outIds

/-- A predicate on the state carried through the fallible computation,
read off both the success value and the state embedded in an error. -/
def ExceptInv (P : MergeFState → Prop) :
    Except (MergeFErr × MergeFState) MergeFState → Prop
  | .ok st => P st
  | .error (_, st) => P st

theorem rollover_rinv (env : MergeEnv) {c₀ : Nat} {d₀ : Disk}
    {st : MergeFState} (h : RollbackInv c₀ d₀ st) :
    (∀ e se, rolloverMergeSegment env st = .error (e, se) →
      RollbackInv c₀ d₀ se) ∧
    (∀ st', rolloverMergeSegment env st = .ok st' → ScanInv c₀ d₀ st') := by
  constructor
  · intro e se hr
    rw [rolloverMergeSegment] at hr
    by_cases hc : env.createFails st.ctr
    · rw [if_pos hc] at hr
      simp only [Except.error.injEq, Prod.mk.injEq] at hr
      obtain ⟨he, hse⟩ := hr
      subst hse
      refine ⟨h.files, h.manifest, ?_, h.outNodup, Nat.le_succ_of_le h.ctrGe⟩
      intro i hi
      exact ⟨(h.outGe i hi).1, Nat.lt_succ_of_lt (h.outGe i hi).2⟩
    · rw [if_neg hc] at hr
      cases hr
  · intro st' hr
    rw [rolloverMergeSegment] at hr
    by_cases hc : env.createFails st.ctr
    · rw [if_pos hc] at hr
      cases hr
    · rw [if_neg hc] at hr
      simp only [Except.ok.injEq] at hr
      subst hr
      refine ⟨⟨?_, h.manifest, ?_, ?_, Nat.le_succ_of_le h.ctrGe⟩, ?_⟩
      · obtain ⟨ext, hf, hids⟩ := h.files
        refine ⟨ext ++ [(st.ctr, [])], ?_, ?_⟩
        · show st.disk.files ++ [(st.ctr, [])] = d₀.files ++ (ext ++ [(st.ctr, [])])
          rw [hf, List.append_assoc]
        · rw [List.map_append, hids, List.map_singleton]
      · intro i hi
        rcases List.mem_append.mp hi with hi' | hi'
        · exact ⟨(h.outGe i hi').1, Nat.lt_succ_of_lt (h.outGe i hi').2⟩
        · rw [List.mem_singleton.mp hi']
          exact ⟨h.ctrGe, Nat.lt_succ_self _⟩
      · rw [List.nodup_append]
        refine ⟨h.outNodup, List.nodup_singleton _, ?_⟩
        intro x hx hx'
        have h1 := (h.outGe x hx).2
        have h2 := List.mem_singleton.mp hx'
        omega
      · show st.ctr ∈ st.outIds ++ [st.ctr]
        simp

theorem rollover_scan (env : MergeEnv) {c₀ : Nat} {d₀ : Disk}
    {st : MergeFState} (h : ScanInv c₀ d₀ st) :
    ExceptInv (ScanInv c₀ d₀) (rolloverMergeSegment env st) := by
  rw [rolloverMergeSegment]
  by_cases hc : env.createFails st.ctr
  · rw [if_pos hc]
    exact ⟨⟨h.1.files, h.1.manifest,
      fun i hi => ⟨(h.1.outGe i hi).1, Nat.lt_succ_of_lt (h.1.outGe i hi).2⟩,
      h.1.outNodup, Nat.le_succ_of_le h.1.ctrGe⟩, h.2⟩
  · rw [if_neg hc]
    exact (rollover_rinv env h.1).2 _ (by rw [rolloverMergeSegment, if_neg hc])

theorem map_id_of_ne {i : Nat} (bs : Bytes) :
    ∀ (base : List (Nat × Bytes)), (∀ p ∈ base, ¬(p.1 = i)) →
      base.map (fun p => if p.1 = i then (p.1, p.2 ++ bs) else p) = base
  | [], _ => rfl
  | q :: t, h => by
    simp only [List.map_cons]
    rw [if_neg (h q (by simp)),
      map_id_of_ne bs t (fun p hp => h p (by simp [hp]))]

theorem map_upd_fst (i : Nat) (bs : Bytes) (ext : List (Nat × Bytes)) :
    (ext.map (fun p => if p.1 = i then (p.1, p.2 ++ bs) else p)).map (·.1) =
      ext.map (·.1) := by
  induction ext with
  | nil => rfl
  | cons q t ih =>
    simp only [List.map_cons, ih]
    by_cases hq : q.1 = i
    · rw [if_pos hq]
    · rw [if_neg hq]

theorem stepRecF_scan (H : HashFn) (env : MergeEnv) (idx : Index) (thr : Nat)
    (segId : Nat) {c₀ : Nat} {d₀ : Disk}
    (hbase : ∀ p ∈ d₀.files, p.1 < c₀) {st : MergeFState}
    (h : ScanInv c₀ d₀ st) (rec : Rec) :
    ExceptInv (ScanInv c₀ d₀) (stepRecF H env idx thr segId st rec) := by
  rw [stepRecF]
  cases hl : idxLookup idx rec.key with
  | none => exact h
  | some loc =>
    simp only
    by_cases hcond : loc.segId = segId ∧ loc.offset = rec.off
    · rw [if_pos hcond]
      have hro0 : ExceptInv (ScanInv c₀ d₀)
          (if st.curSize ≥ thr then rolloverMergeSegment env st else .ok st) := by
        by_cases hthr : st.curSize ≥ thr
        · rw [if_pos hthr]
          exact rollover_scan env h
        · rw [if_neg hthr]
          exact h
      cases hro : (if st.curSize ≥ thr then rolloverMergeSegment env st
          else .ok st) with
      | error est =>
        rw [hro] at hro0
        exact hro0
      | ok st' =>
        rw [hro] at hro0
        have hst' : ScanInv c₀ d₀ st' := hro0
        simp only
        by_cases hw : env.writeFails st'.curId st'.curSize
        · rw [if_pos hw]
          exact hst'
        · rw [if_neg hw]
          have hcge : c₀ ≤ st'.curId := (hst'.1.outGe st'.curId hst'.2).1
          refine ⟨⟨?_, ?_, hst'.1.outGe, hst'.1.outNodup, hst'.1.ctrGe⟩, hst'.2⟩
          · obtain ⟨ext, hf, hids⟩ := hst'.1.files
            refine ⟨ext.map (fun p => if p.1 = st'.curId then
                (p.1, p.2 ++ encodeRecord H TypeSet rec.key rec.val) else p),
              ?_, ?_⟩
            · show (st'.disk.files).map (fun p => if p.1 = st'.curId then
                  (p.1, p.2 ++ encodeRecord H TypeSet rec.key rec.val) else p) =
                d₀.files ++ _
              rw [hf, List.map_append,
                map_id_of_ne _ d₀.files (fun p hp => by
                  have := hbase p hp
                  omega)]
            · rw [map_upd_fst, hids]
          · exact hst'.1.manifest
    · rw [if_neg hcond]
      exact h

theorem foldlE_inv {α : Type _} (P : MergeFState → Prop)
    (f : MergeFState → α → Except (MergeFErr × MergeFState) MergeFState)
    (hf : ∀ b a, P b → ExceptInv P (f b a)) :
    ∀ (l : List α) {b : MergeFState}, P b → ExceptInv P (foldlE f b l)
  | [], _, hb => hb
  | a :: t, b, hb => by
    simp only [foldlE]
    cases hr : f b a with
    | error est =>
      have hfa := hf b a hb
      rw [hr] at hfa
      exact hfa
    | ok b' =>
      have hfa := hf b a hb
      rw [hr] at hfa
      exact foldlE_inv P f hf t hfa

theorem scanSegF_scan (H : HashFn) (env : MergeEnv) (idx : Index) (thr : Nat)
    {c₀ : Nat} {d₀ : Disk} (hbase : ∀ p ∈ d₀.files, p.1 < c₀)
    {st : MergeFState} (h : ScanInv c₀ d₀ st) (seg : Segment) :
    ExceptInv (ScanInv c₀ d₀) (scanSegF H env idx thr st seg) := by
  rw [scanSegF]
  have hmain : ∀ (recs : List Rec),
      ExceptInv (ScanInv c₀ d₀)
        (match foldlE (stepRecF H env idx thr seg.id) st recs with
         | .error est => .error est
         | .ok st' =>
           match env.scanStops seg.id with
           | none => .ok st'
           | some _ => .error (.scanSeg, st')) := by
    intro recs
    have hfd := foldlE_inv (ScanInv c₀ d₀) (stepRecF H env idx thr seg.id)
      (fun b a hb => stepRecF_scan H env idx thr seg.id hbase hb a) recs h
    cases hr : foldlE (stepRecF H env idx thr seg.id) st recs with
    | error est =>
      rw [hr] at hfd
      exact hfd
    | ok st' =>
      rw [hr] at hfd
      cases hstop : env.scanStops seg.id with
      | none => exact hfd
      | some n => exact hfd
  exact hmain _

theorem syncOutsF_scan (env : MergeEnv) {c₀ : Nat} {d₀ : Disk}
    {st : MergeFState} (h : ScanInv c₀ d₀ st) :
    ExceptInv (ScanInv c₀ d₀) (syncOutsF env st) := by
  rw [syncOutsF]
  by_cases hs : st.outIds.any env.syncFails = true
  · rw [if_pos hs]
    exact h
  · rw [if_neg hs]
    exact h

/-- A failing run of the fallible pre-install phase leaves the state of
the deferred abort satisfying the rollback invariant. -/
theorem mergeF_rinv (H : HashFn) (env : MergeEnv) (db : DB) (d : Disk)
    (hbase : ∀ p ∈ d.files, p.1 < db.idCtr) {e : MergeFErr} {st : MergeFState}
    (hfail : mergeF H env db d = .error (e, st)) :
    RollbackInv db.idCtr d st := by
  have h0 : RollbackInv db.idCtr d ⟨[], 0, 0, db.idCtr, d⟩ :=
    ⟨⟨[], by rw [List.append_nil], rfl⟩, rfl,
      fun i hi => absurd hi (List.not_mem_nil i), List.nodup_nil, Nat.le_refl _⟩
  rw [mergeF] at hfail
  cases hro : rolloverMergeSegment env ⟨[], 0, 0, db.idCtr, d⟩ with
  | error est =>
    obtain ⟨e₁, s₁⟩ := est
    rw [hro] at hfail
    simp only [Except.error.injEq, Prod.mk.injEq] at hfail
    obtain ⟨he, hs⟩ := hfail
    subst hs
    exact (rollover_rinv env h0).1 e₁ s₁ hro
  | ok st1 =>
    rw [hro] at hfail
    simp only at hfail
    have h1 : ScanInv db.idCtr d st1 := (rollover_rinv env h0).2 st1 hro
    cases hfold : foldlE (scanSegF H env db.index db.rolloverThreshold) st1
        (db.segments.take (db.segments.length - 1)) with
    | error est =>
      obtain ⟨e₁, s₁⟩ := est
      rw [hfold] at hfail
      simp only [Except.error.injEq, Prod.mk.injEq] at hfail
      obtain ⟨he, hs⟩ := hfail
      subst hs
      have hinv := foldlE_inv (ScanInv db.idCtr d)
        (scanSegF H env db.index db.rolloverThreshold)
        (fun b a hb => scanSegF_scan H env db.index db.rolloverThreshold hbase hb a)
        (db.segments.take (db.segments.length - 1)) h1
      rw [hfold] at hinv
      have hs₁ : ScanInv db.idCtr d s₁ := hinv
      exact hs₁.1
    | ok st2 =>
      rw [hfold] at hfail
      simp only at hfail
      have hinv := foldlE_inv (ScanInv db.idCtr d)
        (scanSegF H env db.index db.rolloverThreshold)
        (fun b a hb => scanSegF_scan H env db.index db.rolloverThreshold hbase hb a)
        (db.segments.take (db.segments.length - 1)) h1
      rw [hfold] at hinv
      have h2 : ScanInv db.idCtr d st2 := hinv
      have h3 := syncOutsF_scan env h2
      rw [hfail] at h3
      have hst : ScanInv db.idCtr d st := h3
      exact hst.1

theorem remove_fold (m : List Nat) :
    ∀ (outIds : List Nat) (base ext : List (Nat × Bytes)),
      ext.map (·.1) = outIds → outIds.Nodup →
      (∀ p ∈ base, p.1 ∉ outIds) →
      outIds.foldl diskRemove ⟨m, base ++ ext⟩ = ⟨m, base⟩
  | [], base, ext, hids, _, _ => by
    have hext : ext = [] := List.map_eq_nil.mp hids
    rw [hext, List.append_nil]
    rfl
  | i :: rest, base, ext, hids, hnd, hb => by
    cases ext with
    | nil => simp at hids
    | cons q ext' =>
      rw [List.map_cons] at hids
      injection hids with hq hids'
      rw [List.nodup_cons] at hnd
      rw [List.foldl_cons]
      have hstep : diskRemove ⟨m, base ++ q :: ext'⟩ i = ⟨m, base ++ ext'⟩ := by
        show (⟨m, (base ++ q :: ext').filter (fun p => p.1 ≠ i)⟩ : Disk) =
          ⟨m, base ++ ext'⟩
        have h1 : base.filter (fun p => p.1 ≠ i) = base :=
          List.filter_eq_self.mpr (fun p hp => by
            have hne : p.1 ≠ i := fun he =>
              hb p hp (by rw [he]; exact List.mem_cons_self i rest)
            simpa using hne)
        have h2 : (q :: ext').filter (fun p => p.1 ≠ i) =
            ext'.filter (fun p => p.1 ≠ i) := by
          rw [List.filter_cons, if_neg (by simp [hq])]
        have h3 : ext'.filter (fun p => p.1 ≠ i) = ext' :=
          List.filter_eq_self.mpr (fun p hp => by
            have hpm : p.1 ∈ rest := hids' ▸ List.mem_map_of_mem (·.1) hp
            have hne : p.1 ≠ i := fun he => hnd.1 (by rw [← he]; exact hpm)
            simpa using hne)
        rw [List.filter_append, h1, h2, h3]
      rw [hstep]
      exact remove_fold m rest base ext' hids' hnd.2
        (fun p hp hmem => hb p hp (List.mem_cons_of_mem _ hmem))

/-- `abortMerge` undoes the fallible phase exactly: removing the created
output files restores the initial directory. -/
theorem abort_restores {c₀ : Nat} {d₀ : Disk}
    (hbase : ∀ p ∈ d₀.files, p.1 < c₀) {st : MergeFState}
    (hr : RollbackInv c₀ d₀ st) :
    abortMerge st.outIds st.disk = d₀ := by
  obtain ⟨ext, hf, hids⟩ := hr.files
  have hdisk : st.disk = ⟨d₀.manifestIds, d₀.files ++ ext⟩ := by
    rw [show st.disk = (⟨st.disk.manifestIds, st.disk.files⟩ : Disk) from rfl,
      hr.manifest, hf]
  rw [abortMerge, hdisk]
  exact remove_fold d₀.manifestIds st.outIds d₀.files ext hids hr.outNodup
    (fun p hp hmem => by
      have h1 := (hr.outGe p.1 hmem).1
      have h2 := hbase p hp
      omega)

/-- **C7.** Merge rollback atomicity: whatever failure injection makes a
pre-install step of the merge fail — output segment creation, input scan,
output write, or output sync — the deferred abort closes and unlinks
exactly the output files created so far, restoring the data directory to
its pre-merge contents; the live segment list, key directory and manifest
are untouched (the failing run returns before the install section, the
only place the code mutates them); and the goroutine surfaces the error on
the merge error channel — parking it in the free slot and releasing the
semaphore — rather than through any foreground operation. -/
theorem merge_rollback_atomicity (H : HashFn) (env : MergeEnv) (db : DB)
    (inv : Inv H db) (e : MergeFErr) (st : MergeFState)
    (hfail : mergeF H env db db.toDisk = .error (e, st)) :
    abortMerge st.outIds st.disk = db.toDisk ∧
    mergeGoroutine (⟨none, true⟩ : ChanState MergeFErr) (some e) =
      some ⟨some e, false⟩ := by
  have hbase : ∀ p ∈ (db.toDisk).files, p.1 < db.idCtr := by
    intro p hp
    rw [DB.toDisk] at hp
    obtain ⟨s, hs, hps⟩ := List.mem_map.mp hp
    rw [← hps]
    exact inv.idsLt s hs
  exact ⟨abort_restores hbase (mergeF_rinv H env db db.toDisk hbase hfail), rfl⟩

/-- Concrete instance of C7: on the fresh one-segment store, an injected
failure of the very first output segment creation aborts with no file
created, the directory is exactly as before, and the error is parked on
the empty error slot with the semaphore released. -/
theorem merge_rollback_atomicity_witness :
    mergeF hashZero ⟨fun _ => true, fun _ _ => false, fun _ => false,
        fun _ => none⟩ db0 db0.toDisk =
      .error (.createSeg, ⟨[], 0, 0, 3, db0.toDisk⟩) ∧
    (abortMerge (⟨[], 0, 0, 3, db0.toDisk⟩ : MergeFState).outIds
        (⟨[], 0, 0, 3, db0.toDisk⟩ : MergeFState).disk = db0.toDisk ∧
      mergeGoroutine (⟨none, true⟩ : ChanState MergeFErr) (some .createSeg) =
        some ⟨some .createSeg, false⟩) :=
  ⟨rfl, merge_rollback_atomicity hashZero
    ⟨fun _ => true, fun _ _ => false, fun _ => false, fun _ => none⟩
    db0 inv_db0 .createSeg ⟨[], 0, 0, 3, db0.toDisk⟩ rfl⟩

end BitDB
